import Mathlib

/-!
Shallow embedding of `fpl_scout.py`, the FPL Scout player-recommendation
pipeline, together with proofs about its core algorithm.

Modelling conventions:
* Python floats are modelled as rationals (`ℚ`); `round(x, 1)` is modelled
  as rounding to the nearest tenth.
* A pandas `DataFrame` of player rows is modelled as a `List Player`; the
  optional `score` column is an `Option ℚ` field so that in-place column
  assignment is observable.
* Fallible code (sklearn raising on an empty sample set, `events[-1]` on an
  empty list) returns `Except String _`.
* `df.sort_values("score", ascending=False)` is modelled faithfully down to
  the sorting algorithm pandas uses: `nargsort` with numpy's default
  `kind='quicksort'` (introsort: median-of-3 quicksort, insertion sort for
  segments of at most 16 elements, heapsort beyond the depth limit).
-/

set_option maxHeartbeats 4000000
set_option maxRecDepth 4000

namespace FPLScout

/-- One row of the player table built by `build_dataframe`
(`fpl_scout.py` lines 65-81).  The `score` field models the optional
`"score"` column of the DataFrame: `none` when the column is absent,
`some s` when present with value `s`. -/
structure Player where
  id : Nat
  name : String
  team : String
  position : String
  price : ℚ
  form : ℚ
  ppg : ℚ
  ownership : ℚ
  minutes_pct : ℚ
  ict_index : ℚ
  bonus : ℚ
  xgi_per90 : ℚ
  fdr : ℚ
  fixture_ease : ℚ
  status : String
  score : Option ℚ := none
deriving DecidableEq, Inhabited

/-- One gameweek event from the bootstrap JSON (`bootstrap["events"]`). -/
structure Event where
  id : Int
  is_next : Bool
deriving DecidableEq, Inhabited

/-- Feature name of the form column. -/
def fForm : String := "form"

/-- Feature name of the points-per-game column. -/
def fPpg : String := "ppg"

/-- Feature name of the fixture-ease column. -/
def fFixtureEase : String := "fixture_ease"

/-- Feature name of the expected-goal-involvements column. -/
def fXgi : String := "xgi_per90"

/-- Feature name of the ICT-index column. -/
def fIct : String := "ict_index"

/-- Feature name of the bonus column. -/
def fBonus : String := "bonus"

/-- Feature name of the ownership column. -/
def fOwnership : String := "ownership"

/-- The fixed weight table (`fpl_scout.py` lines 86-94), in source order. -/
def WEIGHTS : List (String × ℚ) :=
  [(fForm, 0.30), (fPpg, 0.25), (fFixtureEase, 0.20), (fXgi, 0.15),
   (fIct, 0.10), (fBonus, 0.08), (fOwnership, -0.05)]

/-- The seven scoring features, `features = list(WEIGHTS.keys())` (line 97). -/
def features : List String := WEIGHTS.map Prod.fst

/-- Column access `df[f]` for a single row: maps a feature name to the
corresponding field of the row. -/
def featVal (p : Player) (f : String) : ℚ :=
  if f = fForm then p.form
  else if f = fPpg then p.ppg
  else if f = fFixtureEase then p.fixture_ease
  else if f = fXgi then p.xgi_per90
  else if f = fIct then p.ict_index
  else if f = fBonus then p.bonus
  else if f = fOwnership then p.ownership
  else 0

/-- Minimum of a (nonempty) column, i.e. `data_min_` of a fitted
`MinMaxScaler` (numpy `X.min(axis=0)`).  The empty case is never reached:
`score_players` raises before normalizing an empty table. -/
def colMin : List ℚ → ℚ
  | [] => 0
  | x :: xs => xs.foldl min x

/-- Maximum of a (nonempty) column, i.e. `data_max_` of a fitted
`MinMaxScaler`. -/
def colMax : List ℚ → ℚ
  | [] => 0
  | x :: xs => xs.foldl max x

/-- Min-max scaling of one column to `[0, 1]`, as done by sklearn's
`MinMaxScaler` with the default feature range: `(x - min) / (max - min)`,
where sklearn's `_handle_zeros_in_scale` replaces a zero range by `1`
(so a constant column maps to all zeros). -/
def mmScale (l : List ℚ) : List ℚ :=
  let mn := colMin l
  let range0 := colMax l - mn
  let d := if range0 = 0 then 1 else range0
  l.map (fun x => (x - mn) / d)

/-- The normalized column for feature `f`, i.e. column `f` of
`scaler.fit_transform(df[features])` (line 99). -/
def normalizedFeature (df : List Player) (f : String) : List ℚ :=
  mmScale (df.map (fun p => featVal p f))

/-- Entry `i` of the normalized column for feature `f`
(`normed_df[f][i]`, line 100). -/
def normRow (df : List Player) (i : Nat) (f : String) : ℚ :=
  (normalizedFeature df f).getD i 0

/-- Entry `i` of the normalized column after the ownership inversion
`normed_df["ownership"] = 1 - normed_df["ownership"]` (line 103). -/
def invNormRow (df : List Player) (i : Nat) (f : String) : ℚ :=
  if f = fOwnership then 1 - normRow df i f else normRow df i f

/-- The weighted sum `sum(normed_df[f] * w for f, w in WEIGHTS.items())`
for row `i` (lines 106-108). -/
def rawScore (df : List Player) (i : Nat) : ℚ :=
  (WEIGHTS.map (fun fw => invNormRow df i fw.1 * fw.2)).sum

/-- The raw score after the rotation-risk penalty
`df.loc[df["minutes_pct"] < 0.6, "score"] *= 0.7` (lines 110-111). -/
def penalScore (df : List Player) (i : Nat) : ℚ :=
  if (df.getD i default).minutes_pct < 0.6 then rawScore df i * 0.7
  else rawScore df i

/-- Rounding to one decimal place, modelling `.round(1)` on the score
column (nearest tenth). -/
def round1 (x : ℚ) : ℚ := ((round (x * 10) : ℤ) : ℚ) / 10

/-- The final score of row `i`: `df["score"] = (df["score"] * 100).round(1)`
(line 114), applied after the weighted sum and the penalty. -/
def finalScore (df : List Player) (i : Nat) : ℚ :=
  round1 (penalScore df i * 100)

/-- The player table after the three in-place score-column assignments of
`score_players` (lines 106-114): every row keeps all its fields except that
the `score` column now holds the final score. -/
def scoredPlayers (df : List Player) : List Player :=
  (List.range df.length).map
    (fun i => { df.getD i default with score := some (finalScore df i) })

/-!
The sort.  `df.sort_values("score", ascending=False)` (line 115) sorts with
numpy's default `kind='quicksort'` through pandas `nargsort`.  The functions
below model numpy's `npy_aquicksort` (argsort introsort from
`numpy/core/src/npysort/quicksort.c.src`): median-of-3 Hoare partitioning
for segments longer than 16 indices, plain insertion sort for shorter
segments, and the heapsort fallback (`npy_aheapsort`) once the depth limit
`2 * msb(n)` is exhausted.  The index array `tosort` is a `List Nat`, the
value array a `List ℚ`; out-of-range reads default to index `0` / value `0`
and are never reached on the inputs the pipeline produces.
-/

/-- Value keyed by the index stored at position `i` of the index list,
numpy's `v[tosort[i]]`. -/
def keyAt (v : List ℚ) (ts : List Nat) (i : Nat) : ℚ :=
  v.getD (ts.getD i 0) 0

/-- Swap of the entries at positions `i` and `j` (numpy `INTP_SWAP`). -/
def lswap (ts : List Nat) (i j : Nat) : List Nat :=
  let a := ts.getD i 0
  let b := ts.getD j 0
  (ts.set i b).set j a

/-- Stable insertion of index `i` into an (ascending) sorted index list:
`i` is placed before the first index whose value is strictly greater,
exactly where numpy's insertion sort (`do { *pj-- = *pk--; } while (vp <
v[*pk])`) ends up putting it. -/
def npInsertIdx (v : List ℚ) (i : Nat) : List Nat → List Nat
  | [] => [i]
  | j :: js => if v.getD i 0 < v.getD j 0 then i :: j :: js else j :: npInsertIdx v i js

/-- Insertion argsort of an index list, processing indices left to right
(numpy's small-segment insertion sort). -/
def npInsSort (v : List ℚ) (ts : List Nat) : List Nat :=
  ts.foldl (fun acc i => npInsertIdx v i acc) []

/-- Insertion sort of the segment `[lo, hi]` of the index list, the rest
untouched (the `for (pi = pl + 1; pi <= pr; ++pi)` loop of
`npy_aquicksort`). -/
def insRange (v : List ℚ) (ts : List Nat) (lo hi : Nat) : List Nat :=
  ts.take lo ++ npInsSort v ((ts.drop lo).take (hi + 1 - lo)) ++ ts.drop (hi + 1)

/-- Scan `do ++pi; while (v[*pi] < vp)`: first position strictly after `i`
whose value is not below the pivot (fuel-bounded; the fuel is ample for
every call the driver makes). -/
def scanUp (v : List ℚ) (ts : List Nat) (vp : ℚ) (fuel i : Nat) : Nat :=
  if h : fuel = 0 then i + 1
  else if keyAt v ts (i + 1) < vp then scanUp v ts vp (fuel - 1) (i + 1) else i + 1
termination_by fuel
decreasing_by omega

/-- Scan `do --pj; while (vp < v[*pj])`: first position strictly before `j`
whose value is not above the pivot. -/
def scanDown (v : List ℚ) (ts : List Nat) (vp : ℚ) (fuel j : Nat) : Nat :=
  if h : fuel = 0 then j - 1
  else if vp < keyAt v ts (j - 1) then scanDown v ts vp (fuel - 1) (j - 1) else j - 1
termination_by fuel
decreasing_by omega

/-- The Hoare partition loop of `npy_aquicksort`: scan inward from both
ends, swap out-of-place pairs, stop when the cursors cross; returns the
final index list and the crossing position `pi`. -/
def partLoop (v : List ℚ) (vp : ℚ) (fuel : Nat) (ts : List Nat) (i j : Nat) :
    List Nat × Nat :=
  if h : fuel = 0 then (ts, i)
  else
    let i' := scanUp v ts vp ts.length i
    let j' := scanDown v ts vp ts.length j
    if j' ≤ i' then (ts, i')
    else partLoop v vp (fuel - 1) (lswap ts i' j') i' j'
termination_by fuel
decreasing_by omega

/-- One partition step on segment `[lo, hi]`: median-of-3 pivot selection,
pivot parked at `hi - 1`, Hoare loop, pivot swapped back to the crossing
point.  Returns the new index list and the pivot position. -/
def partStep (v : List ℚ) (ts : List Nat) (lo hi : Nat) : List Nat × Nat :=
  let pm := lo + (hi - lo) / 2
  let ts1 := if keyAt v ts pm < keyAt v ts lo then lswap ts pm lo else ts
  let ts2 := if keyAt v ts1 hi < keyAt v ts1 pm then lswap ts1 hi pm else ts1
  let ts3 := if keyAt v ts2 pm < keyAt v ts2 lo then lswap ts2 pm lo else ts2
  let vp := keyAt v ts3 pm
  let ts4 := lswap ts3 pm (hi - 1)
  let r := partLoop v vp (hi - lo + 2) ts4 lo (hi - 1)
  (lswap r.1 r.2 (hi - 1), r.2)

/-- Sift-down inner loop of `npy_aheapsort` (1-based heap on the segment
starting at list position `base`): returns the updated list and the final
hole position. -/
def hSift (v : List ℚ) (base n : Nat) (vtmp : ℚ) (fuel : Nat) (ts : List Nat) (i j : Nat) :
    List Nat × Nat :=
  if h : fuel = 0 then (ts, i)
  else if j ≤ n then
    let j1 := if j < n ∧ keyAt v ts (base + j - 1) < keyAt v ts (base + j) then j + 1 else j
    if vtmp < keyAt v ts (base + j1 - 1) then
      hSift v base n vtmp (fuel - 1) (ts.set (base + i - 1) (ts.getD (base + j1 - 1) 0)) j1 (2 * j1)
    else (ts, i)
  else (ts, i)
termination_by fuel
decreasing_by omega

/-- Sift-down of the element at 1-based heap position `l`. -/
def hSiftAt (v : List ℚ) (base n l : Nat) (ts : List Nat) : List Nat :=
  let tmp := ts.getD (base + l - 1) 0
  let vtmp := v.getD tmp 0
  let r := hSift v base n vtmp (n + 2) ts l (2 * l)
  r.1.set (base + r.2 - 1) tmp

/-- Heap construction of `npy_aheapsort`: sift-down for `l = n/2, …, 1`. -/
def hBuild (v : List ℚ) (base n l : Nat) (ts : List Nat) : List Nat :=
  if h : l = 0 then ts
  else hBuild v base n (l - 1) (hSiftAt v base n l ts)
termination_by l
decreasing_by omega

/-- Extraction phase of `npy_aheapsort`: repeatedly swap the root with the
last heap element and restore the heap. -/
def hExtract (v : List ℚ) (base m : Nat) (ts : List Nat) : List Nat :=
  if h : m ≤ 1 then ts
  else
    let a := ts.getD (base + m - 1) 0
    let b := ts.getD base 0
    let ts1 := (ts.set (base + m - 1) b).set base a
    hExtract v base (m - 1) (hSiftAt v base (m - 1) 1 ts1)
termination_by m
decreasing_by omega

/-- Heapsort of the segment `[lo, hi]` (`npy_aheapsort` called by the
introsort once the depth limit is exhausted). -/
def aheapsortRange (v : List ℚ) (ts : List Nat) (lo hi : Nat) : List Nat :=
  let n := hi + 1 - lo
  hExtract v lo n (hBuild v lo n (n / 2) ts)

/-- The driver loop of `npy_aquicksort` on segment `[lo, hi]`, with the
globally threaded depth budget `d` (decremented once per partition, heapsort
once it drops below zero) and explicit fuel standing in for the C stack;
segments of at most 16 indices are insertion sorted.  The smaller partition
is processed first, as the C code pushes the larger one on its stack. -/
def aqsortRec (v : List ℚ) (fuel : Nat) (ts : List Nat) (lo hi : Nat) (d : Int) :
    List Nat × Int :=
  if h : fuel = 0 then (ts, d)
  else if hi - lo > 15 then
    if d < 0 then (aheapsortRange v ts lo hi, d - 1)
    else
      let p := partStep v ts lo hi
      let pi := p.2
      if pi - lo < hi - pi then
        let r := aqsortRec v (fuel - 1) p.1 lo (pi - 1) (d - 1)
        aqsortRec v (fuel - 1) r.1 (pi + 1) hi r.2
      else
        let r := aqsortRec v (fuel - 1) p.1 (pi + 1) hi (d - 1)
        aqsortRec v (fuel - 1) r.1 lo (pi - 1) r.2
  else (insRange v ts lo hi, d)
termination_by fuel
decreasing_by all_goals omega

/-- Ascending argsort with numpy's default `kind='quicksort'`
(`npy_aquicksort`): returns the permutation of `List.range v.length` that
sorts `v` ascending, ties in the order the introsort happens to leave them. -/
def npArgsortQ (v : List ℚ) : List Nat :=
  (aqsortRec v (v.length + 1) (List.range v.length) 0 (v.length - 1)
    (2 * Nat.log2 v.length)).1

/-- Descending sort indexer, pandas `nargsort(values, kind="quicksort",
ascending=False)` (from `pandas/core/sorting.py`, no-NaN case): reverse the
values, argsort, map through the reversed index array, reverse the result. -/
def nargsortDesc (v : List ℚ) : List Nat :=
  let n := v.length
  let revIdx := (List.range n).reverse
  ((npArgsortQ v.reverse).map (fun k => revIdx.getD k 0)).reverse

/-- Reordering of a row list by an index list (`df.take(indexer)` followed
by `reset_index(drop=True)`). -/
def applyIdx (idx : List Nat) (l : List Player) : List Player :=
  idx.map (fun i => l.getD i default)

/-- Sorted view returned by `score_players`:
`df.sort_values("score", ascending=False).reset_index(drop=True)`
(line 115), sorting on the freshly assigned score column. -/
def score_sort (sdf : List Player) : List Player :=
  applyIdx (nargsortDesc (sdf.map (fun p => p.score.getD 0))) sdf

/-- Error message sklearn raises when `MinMaxScaler.fit_transform` is given
zero samples. -/
def emptyErr : String := "ValueError: Found array with 0 sample(s) while a minimum of 1 is required"

/-- Return value of `score_players(df)` (lines 96-115): on an empty table
`scaler.fit_transform` raises, otherwise the scored table sorted by score
descending. -/
def score_players (df : List Player) : Except String (List Player) :=
  if df = [] then .error emptyErr
  else .ok (score_sort (scoredPlayers df))

/-- Observable state of the caller's DataFrame after `score_players(df)`
returns (or raises): the three score-column assignments happen in place on
`df` itself, so on success the input rows now carry the final scores; on
the empty-input error nothing has been assigned. -/
def score_playersState (df : List Player) : List Player :=
  if df = [] then df else scoredPlayers df

/-- A row of the projection `out[cols]` built by `get_recommendations`
(lines 124-126). -/
structure OutRow where
  name : String
  team : String
  position : String
  price : ℚ
  score : Option ℚ
  ppg : ℚ
  form : ℚ
  fdr : ℚ
  ownership : ℚ
  xgi_per90 : ℚ
deriving DecidableEq, Inhabited

/-- Column projection `out[cols]` of one row. -/
def projRow (p : Player) : OutRow :=
  { name := p.name, team := p.team, position := p.position, price := p.price,
    score := p.score, ppg := p.ppg, form := p.form, fdr := p.fdr,
    ownership := p.ownership, xgi_per90 := p.xgi_per90 }

/-- Python truthiness of the `position` argument: `None` and the empty
string are falsy, so `if position:` skips the filter for both. -/
def truthyS : Option String → Bool
  | none => false
  | some s => !(s == "")

/-- Python truthiness of the `max_price` argument: `None` and `0.0` are
falsy, so `if max_price:` skips the filter for both. -/
def truthyP : Option ℚ → Bool
  | none => false
  | some m => if m = 0 then false else true

/-- Unwrapped string argument (only read when truthy). -/
def optStr : Option String → String
  | none => ""
  | some s => s

/-- Unwrapped price argument (only read when truthy). -/
def optQ : Option ℚ → ℚ
  | none => 0
  | some m => m

/-- The filter stages of `get_recommendations` (lines 119-123): start from
a copy of the ranked table, keep rows matching the position when the
position argument is truthy, then rows with `price <= max_price` when the
price argument is truthy. -/
def recFiltered (df : List Player) (position : Option String) (max_price : Option ℚ) :
    List Player :=
  let out := df
  let out1 := if truthyS position then out.filter (fun p => p.position == optStr position) else out
  if truthyP max_price then out1.filter (fun p => decide (p.price ≤ optQ max_price)) else out1

/-- Return value of `get_recommendations` (lines 118-126) before the
`to_string` rendering: the filtered rows projected to the display columns,
truncated to the first `top_n`. -/
def get_recommendations (df : List Player) (position : Option String)
    (max_price : Option ℚ) (top_n : Nat) : List OutRow :=
  ((recFiltered df position max_price).map projRow).take top_n

/-- Error message of `events[-1]` on an empty list. -/
def idxErr : String := "IndexError: list index out of range"

/-- The current-gameweek selection of `build_dataframe` (lines 43-46):
`next((e["id"] for e in events if e["is_next"]), events[-1]["id"])`.
Python evaluates the default argument `events[-1]["id"]` eagerly, so an
empty event list raises `IndexError` before `next` runs. -/
def current_gw (events : List Event) : Except String Int :=
  match events.getLast? with
  | none => .error idxErr
  | some last => .ok (((events.find? (fun e => e.is_next)).map (fun e => e.id)).getD last.id)

/-- The ownership summand of the weighted sum of lines 106-108: the
normalized, inverted ownership value times the ownership weight `-0.05`. -/
def ownershipContrib (df : List Player) (i : Nat) : ℚ :=
  invNormRow df i fOwnership * (-0.05)

/-- Sort key used on the scored table: the value of the score column. -/
def scoreKey (p : Player) : ℚ := p.score.getD 0

/-- Modelled from the spec: one insertion step of the stable descending
sort the spec asks for ("sort descending by final score; stable tie-break
preserves original encounter order").  Used only to compare the code's
sort against the spec's. -/
def specInsertDesc (x : Player) : List Player → List Player
  | [] => [x]
  | y :: ys => if scoreKey y ≤ scoreKey x then x :: y :: ys else y :: specInsertDesc x ys

/-- Modelled from the spec: stable descending insertion sort by final
score; an element is inserted before the first element whose score is at
most its own, so earlier elements stay ahead on ties. -/
def specSortDesc (l : List Player) : List Player := l.foldr specInsertDesc []

/-- Index-decorated variant of `specInsertDesc` (proof scaffolding). -/
def specInsertDescP (x : Nat × Player) : List (Nat × Player) → List (Nat × Player)
  | [] => [x]
  | y :: ys => if scoreKey y.2 ≤ scoreKey x.2 then x :: y :: ys else y :: specInsertDescP x ys

/-- Index-decorated variant of `specSortDesc` (proof scaffolding). -/
def specSortDescP (l : List (Nat × Player)) : List (Nat × Player) := l.foldr specInsertDescP []

/-- Ascending value order on indices, ties broken by index: the order in
which a stable ascending argsort lists indices. -/
def ascIdxLE (v : List ℚ) (i j : Nat) : Prop :=
  v.getD i 0 < v.getD j 0 ∨ (v.getD i 0 = v.getD j 0 ∧ i ≤ j)

/-- Descending value order on indices, ties broken ascending by index: the
order in which a stable descending sort lists indices. -/
def descIdxLE (v : List ℚ) (i j : Nat) : Prop :=
  v.getD j 0 < v.getD i 0 ∨ (v.getD i 0 = v.getD j 0 ∧ i ≤ j)

/-- Descending score order on index-decorated rows, ties broken ascending
by original index. -/
def descPairLE (a b : Nat × Player) : Prop :=
  scoreKey b.2 < scoreKey a.2 ∨ (scoreKey a.2 = scoreKey b.2 ∧ a.1 ≤ b.1)

/-- Row with the score column dropped (for stating which fields
`score_players` leaves untouched). -/
def eraseScore (p : Player) : Player := { p with score := none }

/-- Concrete test row: identifier plus the seven feature values and the
minutes fraction; the remaining fields are fixed innocuous values. -/
def mkP (id : Nat) (form ppg fe xgi ict bonus own minutes : ℚ) : Player :=
  { id := id, name := "", team := "", position := "MID", price := 5,
    form := form, ppg := ppg, ownership := own, minutes_pct := minutes,
    ict_index := ict, bonus := bonus, xgi_per90 := xgi, fdr := 3,
    fixture_ease := fe, status := "a" }

/-- Concrete test row with a chosen position and price. -/
def mkPP (id : Nat) (pos : String) (price : ℚ) : Player :=
  { mkP id 0 0 0 0 0 0 0 1 with position := pos, price := price }

/-- Two players identical except for ownership (0 versus 10). -/
def dfC1 : List Player :=
  [mkP 1 0 0 0 0 0 0 0 0.9, mkP 2 0 0 0 0 0 0 10 0.9]

/-- Seventeen players identical in every feature, distinct identifiers:
every final score ties, so a stable sort would keep the input order. -/
def dfC2 : List Player :=
  (List.range 17).map (fun k => mkP (k + 1) 0 0 0 0 0 0 0 0.9)

/-- A player holding the population maximum of every positive-weight
feature and of ownership, next to an all-minimum player: the first one's
raw score is the full positive weight mass 1.08. -/
def dfC4 : List Player :=
  [mkP 1 1 1 1 1 1 1 50 0.9, mkP 2 0 0 0 0 0 0 0 0.9]

/-- Three players: rows 1 and 2 identical except minutes fraction (0.5
versus 0.9) with a shared negative raw score, row 3 a strong player
creating the feature spread. -/
def dfC6 : List Player :=
  [mkP 1 0 0 0 0 0 0 0 0.5, mkP 2 0 0 0 0 0 0 0 0.9, mkP 3 1 1 1 1 1 1 10 0.9]

/-- Three players for the rotation-penalty witness: rows 1 and 2 identical
except minutes fraction, with a nonnegative shared raw score. -/
def dfW6 : List Player :=
  [mkP 1 1 0 0 0 0 0 5 0.5, mkP 2 1 0 0 0 0 0 5 0.9, mkP 3 0 0 0 0 0 0 0 0.9]

/-- One player whose table already carries a score column value 42. -/
def dfC9 : List Player :=
  [{ mkP 1 0 0 0 0 0 0 0 0.9 with score := some 42 }]

/-- Position code for midfielders. -/
def posMID : String := "MID"

/-- Position code for forwards. -/
def posFWD : String := "FWD"

/-- Small mixed table for the filter claims: two positions, two prices. -/
def dfW7 : List Player :=
  [mkPP 1 posMID 4, mkPP 2 posFWD 9, mkPP 3 posMID 9, mkPP 4 posMID 5]

/-- Concrete event list with a single `is_next` flag. -/
def evW : List Event :=
  [{ id := 1, is_next := false }, { id := 2, is_next := true }, { id := 3, is_next := false }]

/-- Concrete event list with no `is_next` flag. -/
def evW2 : List Event :=
  [{ id := 7, is_next := false }, { id := 9, is_next := false }]

/-- The scored, sorted output of the pipeline on `dfC1`. -/
def outC1 : List Player :=
  [{ mkP 2 0 0 0 0 0 0 10 0.9 with score := some 0 },
   { mkP 1 0 0 0 0 0 0 0 0.9 with score := some (-5) }]

/-- The empty position string (falsy in Python). -/
def emptyPos : String := ""

/-- The score column of `dfC2` after scoring: seventeen tied values. -/
def vC2 : List ℚ :=
  [-5, -5, -5, -5, -5, -5, -5, -5, -5, -5, -5, -5, -5, -5, -5, -5, -5]

/-- The index order pandas' descending quicksort argsort produces on the
seventeen tied scores (computed by tracing numpy's introsort: one
median-of-3 partition pass, then insertion sort on both halves). -/
def permC2 : List Nat :=
  [0, 9, 15, 14, 13, 12, 11, 10, 8, 1, 7, 6, 5, 4, 3, 2, 16]

/-- The player ids of the sorted output on `dfC2` (input ids are 1..17). -/
def idsC2 : List Nat :=
  [1, 10, 16, 15, 14, 13, 12, 11, 9, 2, 8, 7, 6, 5, 4, 3, 17]

/-!
Unfolding lemmas for the fuel-guarded sort loops.  The zero-fuel equations
and the guarded step equations below let `simp`/`norm_num` evaluate the
loops on concrete inputs without diverging on the recursive occurrences.
-/

theorem scanUp_zero (v : List ℚ) (ts : List Nat) (vp : ℚ) (i : Nat) :
    scanUp v ts vp 0 i = i + 1 := by
  rw [scanUp.eq_def]
  simp

theorem scanUp_step (v : List ℚ) (ts : List Nat) (vp : ℚ) {fuel : Nat} (i : Nat)
    (h : fuel ≠ 0) :
    scanUp v ts vp fuel i =
      if keyAt v ts (i + 1) < vp then scanUp v ts vp (fuel - 1) (i + 1) else i + 1 := by
  conv_lhs => rw [scanUp.eq_def]
  simp [h]

theorem scanDown_zero (v : List ℚ) (ts : List Nat) (vp : ℚ) (j : Nat) :
    scanDown v ts vp 0 j = j - 1 := by
  rw [scanDown.eq_def]
  simp

theorem scanDown_step (v : List ℚ) (ts : List Nat) (vp : ℚ) {fuel : Nat} (j : Nat)
    (h : fuel ≠ 0) :
    scanDown v ts vp fuel j =
      if vp < keyAt v ts (j - 1) then scanDown v ts vp (fuel - 1) (j - 1) else j - 1 := by
  conv_lhs => rw [scanDown.eq_def]
  simp [h]

theorem partLoop_step (v : List ℚ) (vp : ℚ) {fuel : Nat} (ts : List Nat) (i j : Nat)
    (h : fuel ≠ 0) :
    partLoop v vp fuel ts i j =
      let i' := scanUp v ts vp ts.length i
      let j' := scanDown v ts vp ts.length j
      if j' ≤ i' then (ts, i')
      else partLoop v vp (fuel - 1) (lswap ts i' j') i' j' := by
  conv_lhs => rw [partLoop.eq_def]
  simp [h]

theorem aqsortRec_step (v : List ℚ) {fuel : Nat} (ts : List Nat) (lo hi : Nat) (d : Int)
    (h : fuel ≠ 0) :
    aqsortRec v fuel ts lo hi d =
      if hi - lo > 15 then
        if d < 0 then (aheapsortRange v ts lo hi, d - 1)
        else
          let p := partStep v ts lo hi
          let pi := p.2
          if pi - lo < hi - pi then
            let r := aqsortRec v (fuel - 1) p.1 lo (pi - 1) (d - 1)
            aqsortRec v (fuel - 1) r.1 (pi + 1) hi r.2
          else
            let r := aqsortRec v (fuel - 1) p.1 (pi + 1) hi (d - 1)
            aqsortRec v (fuel - 1) r.1 lo (pi - 1) r.2
      else (insRange v ts lo hi, d) := by
  conv_lhs => rw [aqsortRec.eq_def]
  simp [h]

theorem aqsortRec_small (v : List ℚ) {fuel : Nat} (ts : List Nat) {lo hi : Nat} (d : Int)
    (hf : fuel ≠ 0) (h : ¬ hi - lo > 15) :
    aqsortRec v fuel ts lo hi d = (insRange v ts lo hi, d) := by
  rw [aqsortRec.eq_def]
  simp [hf, h]

/-- On at most 16 values the introsort never partitions: it is exactly the
stable insertion argsort. -/
theorem npArgsortQ_small {v : List ℚ} (h : v.length ≤ 16) :
    npArgsortQ v = npInsSort v (List.range v.length) := by
  unfold npArgsortQ
  rw [aqsortRec_small v (List.range v.length) _ (by omega) (by omega)]
  unfold insRange
  have h1 : (List.range v.length).take (v.length - 1 + 1) = List.range v.length := by
    apply List.take_of_length_le
    simp
    omega
  have h2 : (List.range v.length).drop (v.length - 1 + 1) = [] := by
    apply List.drop_eq_nil_of_le
    simp
    omega
  simp [h1, h2]

/-!
Basic facts about the column minimum/maximum and min-max scaling.
-/

theorem foldl_min_le_init (as : List ℚ) (a : ℚ) : as.foldl min a ≤ a := by
  induction as generalizing a with
  | nil => simp
  | cons b bs ih =>
    simp only [List.foldl_cons]
    exact le_trans (ih (min a b)) (min_le_left a b)

theorem foldl_min_le_mem {as : List ℚ} {x : ℚ} (a : ℚ) (hx : x ∈ as) :
    as.foldl min a ≤ x := by
  induction as generalizing a with
  | nil => cases hx
  | cons b bs ih =>
    simp only [List.foldl_cons]
    rcases List.mem_cons.mp hx with h | h
    · subst h
      exact le_trans (foldl_min_le_init bs (min a x)) (min_le_right a x)
    · exact ih (min a b) h

theorem init_le_foldl_max (as : List ℚ) (a : ℚ) : a ≤ as.foldl max a := by
  induction as generalizing a with
  | nil => simp
  | cons b bs ih =>
    simp only [List.foldl_cons]
    exact le_trans (le_max_left a b) (ih (max a b))

theorem mem_le_foldl_max {as : List ℚ} {x : ℚ} (a : ℚ) (hx : x ∈ as) :
    x ≤ as.foldl max a := by
  induction as generalizing a with
  | nil => cases hx
  | cons b bs ih =>
    simp only [List.foldl_cons]
    rcases List.mem_cons.mp hx with h | h
    · subst h
      exact le_trans (le_max_right a x) (init_le_foldl_max bs (max a x))
    · exact ih (max a b) h

theorem colMin_le {l : List ℚ} {x : ℚ} (hx : x ∈ l) : colMin l ≤ x := by
  cases l with
  | nil => cases hx
  | cons a as =>
    rcases List.mem_cons.mp hx with h | h
    · subst h
      exact foldl_min_le_init as x
    · exact foldl_min_le_mem a h

theorem le_colMax {l : List ℚ} {x : ℚ} (hx : x ∈ l) : x ≤ colMax l := by
  cases l with
  | nil => cases hx
  | cons a as =>
    rcases List.mem_cons.mp hx with h | h
    · subst h
      exact init_le_foldl_max as x
    · exact mem_le_foldl_max a h

theorem mmScale_length (l : List ℚ) : (mmScale l).length = l.length := by
  simp [mmScale]

/-- Every min-max scaled value lies in the closed unit interval. -/
theorem mmScale_mem_bounds {l : List ℚ} {x : ℚ} (hx : x ∈ mmScale l) :
    0 ≤ x ∧ x ≤ 1 := by
  simp only [mmScale, List.mem_map] at hx
  obtain ⟨y, hy, hxy⟩ := hx
  subst hxy
  have hmn := colMin_le hy
  have hmx := le_colMax hy
  by_cases h0 : colMax l - colMin l = 0
  · have hy0 : y = colMin l := le_antisymm (by linarith) hmn
    simp [h0, hy0]
  · have hpos : 0 < colMax l - colMin l := by
      rcases lt_or_eq_of_le (by linarith : colMin l ≤ colMax l) with h | h
      · linarith
      · exact absurd (by linarith) h0
    rw [if_neg h0]
    constructor
    · exact div_nonneg (by linarith) (le_of_lt hpos)
    · rw [div_le_one hpos]
      linarith

/-- Entry formula of the scaled column. -/
theorem mmScale_getD {l : List ℚ} {i : Nat} (h : i < l.length) :
    (mmScale l).getD i 0 =
      (l.getD i 0 - colMin l) /
        (if colMax l - colMin l = 0 then 1 else colMax l - colMin l) := by
  have h' : i < (mmScale l).length := by simpa [mmScale_length]
  rw [List.getD_eq_getElem _ _ h', List.getD_eq_getElem _ _ h]
  simp [mmScale]

theorem normalizedFeature_length (df : List Player) (f : String) :
    (normalizedFeature df f).length = df.length := by
  simp [normalizedFeature, mmScale_length]

/-- Every normalized feature entry of an in-range row lies in `[0, 1]`. -/
theorem normRow_bounds (df : List Player) (f : String) {i : Nat} (h : i < df.length) :
    0 ≤ normRow df i f ∧ normRow df i f ≤ 1 := by
  have h' : i < (normalizedFeature df f).length := by
    rwa [normalizedFeature_length]
  have hmem : (normalizedFeature df f).getD i 0 ∈ normalizedFeature df f := by
    rw [List.getD_eq_getElem _ _ h']
    exact List.getElem_mem h'
  exact mmScale_mem_bounds hmem

/-- After the ownership inversion every entry still lies in `[0, 1]`. -/
theorem invNormRow_bounds (df : List Player) (f : String) {i : Nat} (h : i < df.length) :
    0 ≤ invNormRow df i f ∧ invNormRow df i f ≤ 1 := by
  have hb := normRow_bounds df f h
  unfold invNormRow
  split
  · constructor <;> linarith [hb.1, hb.2]
  · exact hb

/-!
Evaluation lemmas for column access and inversion at each of the seven
feature names, so that concrete runs of the pipeline never leave string
comparisons in goals.
-/

theorem featVal_form (p : Player) : featVal p fForm = p.form := by
  simp [featVal, fForm, fPpg, fFixtureEase, fXgi, fIct, fBonus, fOwnership]

theorem featVal_ppg (p : Player) : featVal p fPpg = p.ppg := by
  simp [featVal, fForm, fPpg, fFixtureEase, fXgi, fIct, fBonus, fOwnership]

theorem featVal_fe (p : Player) : featVal p fFixtureEase = p.fixture_ease := by
  simp [featVal, fForm, fPpg, fFixtureEase, fXgi, fIct, fBonus, fOwnership]

theorem featVal_xgi (p : Player) : featVal p fXgi = p.xgi_per90 := by
  simp [featVal, fForm, fPpg, fFixtureEase, fXgi, fIct, fBonus, fOwnership]

theorem featVal_ict (p : Player) : featVal p fIct = p.ict_index := by
  simp [featVal, fForm, fPpg, fFixtureEase, fXgi, fIct, fBonus, fOwnership]

theorem featVal_bonus (p : Player) : featVal p fBonus = p.bonus := by
  simp [featVal, fForm, fPpg, fFixtureEase, fXgi, fIct, fBonus, fOwnership]

theorem featVal_own (p : Player) : featVal p fOwnership = p.ownership := by
  simp [featVal, fForm, fPpg, fFixtureEase, fXgi, fIct, fBonus, fOwnership]

theorem invNormRow_form (df : List Player) (i : Nat) :
    invNormRow df i fForm = normRow df i fForm := by
  simp [invNormRow, fForm, fOwnership]

theorem invNormRow_ppg (df : List Player) (i : Nat) :
    invNormRow df i fPpg = normRow df i fPpg := by
  simp [invNormRow, fPpg, fOwnership]

theorem invNormRow_fe (df : List Player) (i : Nat) :
    invNormRow df i fFixtureEase = normRow df i fFixtureEase := by
  simp [invNormRow, fFixtureEase, fOwnership]

theorem invNormRow_xgi (df : List Player) (i : Nat) :
    invNormRow df i fXgi = normRow df i fXgi := by
  simp [invNormRow, fXgi, fOwnership]

theorem invNormRow_ict (df : List Player) (i : Nat) :
    invNormRow df i fIct = normRow df i fIct := by
  simp [invNormRow, fIct, fOwnership]

theorem invNormRow_bonus (df : List Player) (i : Nat) :
    invNormRow df i fBonus = normRow df i fBonus := by
  simp [invNormRow, fBonus, fOwnership]

theorem invNormRow_own (df : List Player) (i : Nat) :
    invNormRow df i fOwnership = 1 - normRow df i fOwnership := by
  simp [invNormRow]

/-- With a nonempty table, `score_players` reaches the sort. -/
theorem score_players_ok {df : List Player} (h : df ≠ []) :
    score_players df = .ok (score_sort (scoredPlayers df)) := by
  unfold score_players
  rw [if_neg h]

/-- The weighted sum written out over the seven features. -/
theorem rawScore_expand (df : List Player) (i : Nat) :
    rawScore df i =
      invNormRow df i fForm * (3 / 10) + invNormRow df i fPpg * (1 / 4) +
        invNormRow df i fFixtureEase * (1 / 5) + invNormRow df i fXgi * (3 / 20) +
        invNormRow df i fIct * (1 / 10) + invNormRow df i fBonus * (2 / 25) +
        invNormRow df i fOwnership * (-(1 / 20)) := by
  norm_num [rawScore, WEIGHTS]
  ring

/-- The raw weighted sum is trapped between `-0.05` (all positive-weight
features at the population minimum, inverted ownership at `1`) and `1.08`
(all positive-weight features at the maximum, inverted ownership at `0`). -/
theorem rawScore_bounds (df : List Player) {i : Nat} (h : i < df.length) :
    -(1 / 20) ≤ rawScore df i ∧ rawScore df i ≤ 27 / 25 := by
  obtain ⟨a0, a1⟩ := invNormRow_bounds df fForm h
  obtain ⟨b0, b1⟩ := invNormRow_bounds df fPpg h
  obtain ⟨c0, c1⟩ := invNormRow_bounds df fFixtureEase h
  obtain ⟨d0, d1⟩ := invNormRow_bounds df fXgi h
  obtain ⟨e0, e1⟩ := invNormRow_bounds df fIct h
  obtain ⟨f0, f1⟩ := invNormRow_bounds df fBonus h
  obtain ⟨g0, g1⟩ := invNormRow_bounds df fOwnership h
  rw [rawScore_expand]
  constructor <;> nlinarith

theorem penalScore_bounds (df : List Player) {i : Nat} (h : i < df.length) :
    -(1 / 20) ≤ penalScore df i ∧ penalScore df i ≤ 27 / 25 := by
  obtain ⟨h1, h2⟩ := rawScore_bounds df h
  unfold penalScore
  split <;> constructor <;> nlinarith

/-- Rounding to the nearest tenth is monotone. -/
theorem round1_le_round1 {x y : ℚ} (h : x ≤ y) : round1 x ≤ round1 y := by
  unfold round1
  have hr : round (x * 10) ≤ round (y * 10) := by
    rw [round_eq, round_eq]
    exact Int.floor_mono (by linarith)
  have hc : ((round (x * 10) : ℤ) : ℚ) ≤ ((round (y * 10) : ℤ) : ℚ) := by exact_mod_cast hr
  linarith

/-- Rounding to the nearest tenth fixes integers. -/
theorem round1_intCast (n : ℤ) : round1 ((n : ℚ)) = (n : ℚ) := by
  unfold round1
  rw [show ((n : ℚ) * 10) = ((n * 10 : ℤ) : ℚ) by push_cast; ring, round_intCast]
  push_cast
  ring

/-- Every final score lies between `-5` and `108`. -/
theorem finalScore_bounds (df : List Player) {i : Nat} (h : i < df.length) :
    -5 ≤ finalScore df i ∧ finalScore df i ≤ 108 := by
  obtain ⟨h1, h2⟩ := penalScore_bounds df h
  unfold finalScore
  have l1 : round1 (((-5 : ℤ) : ℚ)) ≤ round1 (penalScore df i * 100) :=
    round1_le_round1 (by push_cast; nlinarith)
  have l2 : round1 (penalScore df i * 100) ≤ round1 (((108 : ℤ) : ℚ)) :=
    round1_le_round1 (by push_cast; nlinarith)
  rw [round1_intCast] at l1 l2
  push_cast at l1 l2
  exact ⟨l1, l2⟩

theorem scoredPlayers_length (df : List Player) :
    (scoredPlayers df).length = df.length := by
  simp [scoredPlayers]

theorem mem_scoredPlayers {df : List Player} {r : Player} (hr : r ∈ scoredPlayers df) :
    ∃ i, i < df.length ∧ r = { df.getD i default with score := some (finalScore df i) } := by
  simp only [scoredPlayers, List.mem_map, List.mem_range] at hr
  obtain ⟨i, hi, he⟩ := hr
  exact ⟨i, hi, he.symm⟩

theorem scoredPlayers_getD {df : List Player} {i : Nat} (h : i < df.length) :
    (scoredPlayers df).getD i default =
      { df.getD i default with score := some (finalScore df i) } := by
  have h' : i < (scoredPlayers df).length := by rwa [scoredPlayers_length]
  rw [List.getD_eq_getElem _ _ h']
  simp [scoredPlayers, List.getElem_map, List.getElem_range, List.getD_eq_getElem]

theorem range1 : List.range 1 = [0] := by decide

theorem range2 : List.range 2 = [0, 1] := by decide

theorem range3 : List.range 3 = [0, 1, 2] := by decide

theorem range17 :
    List.range 17 = [0, 1, 2, 3, 4, 5, 6, 7, 8, 9, 10, 11, 12, 13, 14, 15, 16] := by decide

/-- Lists as maps over their index range. -/
theorem map_eq_range_map {α β : Type} [Inhabited α] (g : α → β) (l : List α) :
    l.map g = (List.range l.length).map (fun i => g (l.getD i default)) := by
  apply List.ext_getElem
  · simp
  · intro i h1 h2
    have hi : i < l.length := by simpa using h1
    simp [List.getElem_map, List.getElem_range, List.getD_eq_getElem _ _ hi,
      List.getElem?_eq_getElem hi]

/-- Every row of the sorted output is either a scored row or the
out-of-range default (which the index permutation never actually hits). -/
theorem mem_score_players {df out : List Player} (h : score_players df = .ok out)
    {r : Player} (hr : r ∈ out) : r = default ∨ r ∈ scoredPlayers df := by
  rcases em (df = []) with he | he
  · subst he
    simp [score_players] at h
  · rw [score_players_ok he] at h
    have hout : score_sort (scoredPlayers df) = out := by
      injection h
    subst hout
    unfold score_sort applyIdx at hr
    simp only [List.mem_map] at hr
    obtain ⟨i, _, he2⟩ := hr
    by_cases hlen : i < (scoredPlayers df).length
    · right
      rw [← he2, List.getD_eq_getElem _ _ hlen]
      exact List.getElem_mem hlen
    · left
      rw [← he2, List.getD_eq_default _ _ (le_of_not_lt hlen)]

/-- C4 (amended): every record the Scoring Engine outputs has a final
score in the closed interval `[-5, 108]`; the spec's claimed `[0, 100]`
range is wrong on both ends (see the counterexample). -/
theorem c4_score_range (df out : List Player) (h : score_players df = .ok out) :
    ∀ r ∈ out, -5 ≤ scoreKey r ∧ scoreKey r ≤ 108 := by
  intro r hr
  rcases mem_score_players h hr with hd | hm
  · subst hd
    have hds : (default : Player).score = none := rfl
    simp [scoreKey, hds]
  · obtain ⟨i, hi, he⟩ := mem_scoredPlayers hm
    subst he
    simpa [scoreKey] using finalScore_bounds df hi

/-- C4 counterexample: on `dfC4` the top record's final score is `108.0`,
outside the spec's claimed `0`-`100` range. -/
theorem c4_counterexample :
    ∃ out, score_players dfC4 = Except.ok out ∧
      ∃ r ∈ out, ¬ (0 ≤ scoreKey r ∧ scoreKey r ≤ 100) := by
  have hEval : score_players dfC4 =
      .ok [{ mkP 1 1 1 1 1 1 1 50 0.9 with score := some 108 },
           { mkP 2 0 0 0 0 0 0 0 0.9 with score := some (-5) }] := by
    rw [score_players_ok (by simp [dfC4])]
    norm_num [score_sort, scoredPlayers, applyIdx, nargsortDesc,
      npArgsortQ_small, npInsSort, npInsertIdx, List.foldl_cons, List.foldl_nil,
      finalScore, penalScore, rawScore, WEIGHTS, invNormRow_form, invNormRow_ppg,
      invNormRow_fe, invNormRow_xgi, invNormRow_ict, invNormRow_bonus, invNormRow_own,
      normRow, normalizedFeature, mmScale, colMin, colMax,
      featVal_form, featVal_ppg, featVal_fe, featVal_xgi, featVal_ict, featVal_bonus,
      featVal_own, dfC4, mkP, round1, round_eq, range2, min_def, max_def]
  refine ⟨_, hEval, { mkP 1 1 1 1 1 1 1 50 0.9 with score := some 108 }, by simp, ?_⟩
  norm_num [scoreKey]

/-- C4 witness: the amended range theorem applied to the concrete run on
`dfC1`, at the top output row. -/
theorem c4_witness :
    -5 ≤ scoreKey (outC1.getD 0 default) ∧ scoreKey (outC1.getD 0 default) ≤ 108 := by
  have hEval : score_players dfC1 = .ok outC1 := by
    rw [score_players_ok (by simp [dfC1])]
    norm_num [score_sort, scoredPlayers, applyIdx, nargsortDesc,
      npArgsortQ_small, npInsSort, npInsertIdx, List.foldl_cons, List.foldl_nil,
      finalScore, penalScore, rawScore, WEIGHTS, invNormRow_form, invNormRow_ppg,
      invNormRow_fe, invNormRow_xgi, invNormRow_ict, invNormRow_bonus, invNormRow_own,
      normRow, normalizedFeature, mmScale, colMin, colMax,
      featVal_form, featVal_ppg, featVal_fe, featVal_xgi, featVal_ict, featVal_bonus,
      featVal_own, dfC1, outC1, mkP, round1, round_eq, range2, min_def, max_def]
  exact c4_score_range dfC1 outC1 hEval (outC1.getD 0 default)
    (by simp [outC1, List.getD_cons_zero])

/-- C3 (amended): an empty player table makes `score_players` raise
(sklearn refuses zero samples); a nonempty table is scored and sorted
without an exception. -/
theorem c3_empty_raises (df : List Player) :
    (df = [] → score_players df = Except.error emptyErr) ∧
    (df ≠ [] → score_players df = Except.ok (score_sort (scoredPlayers df))) := by
  constructor
  · intro h
    subst h
    simp [score_players]
  · intro h
    exact score_players_ok h

/-- C3 counterexample: on the empty table the engine does not return the
empty scored table - it raises. -/
theorem c3_counterexample : score_players [] ≠ Except.ok [] := by
  simp [score_players]

/-- C3 witness: both branches of the amended claim at concrete inputs. -/
theorem c3_witness :
    score_players ([] : List Player) = Except.error emptyErr ∧
    score_players dfC1 = Except.ok (score_sort (scoredPlayers dfC1)) :=
  ⟨(c3_empty_raises []).1 rfl, (c3_empty_raises dfC1).2 (by simp [dfC1])⟩

/-- C9 (amended): `score_players` mutates its input in place - after the
call the caller's table carries the freshly computed scores in its score
column - while every other field is untouched. -/
theorem c9_state_mutation (df : List Player) :
    (score_playersState df).map eraseScore = df.map eraseScore ∧
    (df ≠ [] → ∀ i, i < df.length →
      ((score_playersState df).getD i default).score = some (finalScore df i)) := by
  constructor
  · unfold score_playersState
    split
    · rfl
    · rw [map_eq_range_map eraseScore df]
      unfold scoredPlayers
      rw [List.map_map]
      rfl
  · intro hne i hi
    unfold score_playersState
    rw [if_neg hne, scoredPlayers_getD hi]

/-- C9 counterexample: a pre-existing score column value 42 is overwritten
in place by the scoring pass. -/
theorem c9_counterexample :
    (dfC9.getD 0 default).score = some 42 ∧
    ((score_playersState dfC9).getD 0 default).score = some (-5) ∧
    score_playersState dfC9 ≠ dfC9 := by
  have hEval : score_playersState dfC9 =
      [{ mkP 1 0 0 0 0 0 0 0 0.9 with score := some (-5) }] := by
    unfold score_playersState
    rw [if_neg (by simp [dfC9])]
    norm_num [scoredPlayers, finalScore, penalScore, rawScore, WEIGHTS,
      invNormRow_form, invNormRow_ppg, invNormRow_fe, invNormRow_xgi,
      invNormRow_ict, invNormRow_bonus, invNormRow_own, normRow,
      normalizedFeature, mmScale, colMin, colMax, featVal_form, featVal_ppg,
      featVal_fe, featVal_xgi, featVal_ict, featVal_bonus, featVal_own,
      dfC9, mkP, round1, round_eq, range1, min_def, max_def]
  refine ⟨by simp [dfC9, mkP], by rw [hEval]; simp [mkP], ?_⟩
  rw [hEval]
  intro hcon
  have h42 := congrArg (fun l : List Player => (l.getD 0 default).score) hcon
  simp only [dfC9, mkP, List.getD_cons_zero] at h42
  norm_num at h42

/-- C9 witness: the frame theorem applied to the concrete one-row table
with a pre-existing score column. -/
theorem c9_witness :
    (score_playersState dfC9).map eraseScore = dfC9.map eraseScore ∧
    ((score_playersState dfC9).getD 0 default).score = some (finalScore dfC9 0) :=
  ⟨(c9_state_mutation dfC9).1,
   (c9_state_mutation dfC9).2 (by simp [dfC9]) 0 (by simp [dfC9])⟩

/-- Skipping both filters returns the table itself (the copy). -/
theorem recFiltered_none_none (df : List Player) : recFiltered df none none = df := rfl

/-- With no price bound only the position gate remains. -/
theorem recFiltered_pos_only (df : List Player) (pos : Option String) :
    recFiltered df pos none =
      if truthyS pos then df.filter (fun p => p.position == optStr pos) else df := rfl

/-- A truthy price bound composes as a filter after the position stage. -/
theorem recFiltered_price_some (df : List Player) (pos : Option String) {M : ℚ}
    (h : M ≠ 0) :
    recFiltered df pos (some M) =
      (recFiltered df pos none).filter (fun p => decide (p.price ≤ M)) := by
  unfold recFiltered
  simp [truthyP, h, optQ]

/-- A zero price bound is falsy: no price filter at all. -/
theorem recFiltered_price_zero (df : List Player) (pos : Option String) :
    recFiltered df pos (some 0) = recFiltered df pos none := by
  unfold recFiltered
  simp [truthyP]

/-- C10: a `max_price` of `0` and an empty-string `position` are falsy, so
both filters are skipped and the result is the plain first-`n` projection
of the ranked table. -/
theorem c10_truthiness (df : List Player) (n : Nat) :
    get_recommendations df (some emptyPos) (some 0) n = (df.map projRow).take n ∧
    get_recommendations df none none n = (df.map projRow).take n ∧
    get_recommendations df (some emptyPos) none n = (df.map projRow).take n ∧
    get_recommendations df none (some 0) n = (df.map projRow).take n := by
  refine ⟨?_, ?_, ?_, ?_⟩ <;>
    simp [get_recommendations, recFiltered, truthyS, truthyP, emptyPos]

/-- C7: before the count limit, the doubly filtered rows are a sublist of
the position-filtered rows, which are a sublist of the ranked table (both
order preserving); the price filter is inclusive; the count limit
truncates and never pads. -/
theorem c7_filter_comp (df : List Player) (P : String) (M : ℚ) (n : Nat) :
    ((recFiltered df (some P) (some M)).map projRow).Sublist
      ((recFiltered df (some P) none).map projRow) ∧
    ((recFiltered df (some P) none).map projRow).Sublist (df.map projRow) ∧
    (M ≠ 0 → ∀ p : Player,
      p ∈ recFiltered df (some P) (some M) ↔
        p ∈ recFiltered df (some P) none ∧ p.price ≤ M) ∧
    get_recommendations df (some P) (some M) n =
      ((recFiltered df (some P) (some M)).map projRow).take n ∧
    (get_recommendations df (some P) (some M) n).length ≤ n := by
  refine ⟨?_, ?_, ?_, rfl, ?_⟩
  · apply List.Sublist.map
    rcases em (M = 0) with h0 | h0
    · subst h0
      rw [recFiltered_price_zero]
    · rw [recFiltered_price_some df _ h0]
      exact List.filter_sublist _
  · apply List.Sublist.map
    rw [recFiltered_pos_only]
    split
    · exact List.filter_sublist _
    · exact List.Sublist.refl _
  · intro h0 p
    rw [recFiltered_price_some df _ h0]
    simp [List.mem_filter]
  · simp only [get_recommendations, List.length_take]
    exact min_le_left _ _

/-- C7 witness: the price-inclusivity part applied at a concrete table,
position, bound, and row. -/
theorem c7_witness :
    mkPP 1 posMID 4 ∈ recFiltered dfW7 (some posMID) (some 5) ↔
      mkPP 1 posMID 4 ∈ recFiltered dfW7 (some posMID) none ∧
        (mkPP 1 posMID 4).price ≤ 5 :=
  ((c7_filter_comp dfW7 posMID 5 0).2.2.1 (by norm_num)) (mkPP 1 posMID 4)

/-- Feature column entry of an in-range row. -/
theorem featCol_getD {df : List Player} (f : String) {i : Nat} (h : i < df.length) :
    (df.map (fun p => featVal p f)).getD i 0 = featVal (df.getD i default) f := by
  have h' : i < (df.map (fun p => featVal p f)).length := by simpa
  rw [List.getD_eq_getElem _ _ h', List.getD_eq_getElem _ _ h, List.getElem_map]

/-- The scaling denominator is positive as soon as the column is nonempty. -/
theorem mmScale_d_pos {l : List ℚ} (hne : l ≠ []) :
    0 < (if colMax l - colMin l = 0 then 1 else colMax l - colMin l) := by
  split
  · norm_num
  · rename_i hd
    obtain ⟨x, hx⟩ := List.exists_mem_of_ne_nil l hne
    have h1 := colMin_le hx
    have h2 := le_colMax hx
    rcases lt_or_eq_of_le (le_trans h1 h2) with h | h
    · linarith
    · exact absurd (by linarith) hd

/-- C5: over the (nonempty) population each normalized feature stays in
the closed interval `[0, 1]`; a holder of the population minimum maps to
exactly `0`; a holder of the maximum maps to exactly `1` unless the
feature is constant; a constant feature maps every row to `0` (the
zero-range denominator is replaced by `1`, so there is no division by
zero). -/
theorem c5_minmax_norm (df : List Player) (h : df ≠ []) (f : String) (hf : f ∈ features) :
    (∀ x ∈ normalizedFeature df f, 0 ≤ x ∧ x ≤ 1) ∧
    (∀ i, i < df.length →
      featVal (df.getD i default) f = colMin (df.map (fun p => featVal p f)) →
      normRow df i f = 0) ∧
    (∀ i, i < df.length →
      featVal (df.getD i default) f = colMax (df.map (fun p => featVal p f)) →
      colMin (df.map (fun p => featVal p f)) ≠ colMax (df.map (fun p => featVal p f)) →
      normRow df i f = 1) ∧
    (colMin (df.map (fun p => featVal p f)) = colMax (df.map (fun p => featVal p f)) →
      ∀ i, normRow df i f = 0) := by
  refine ⟨fun x hx => mmScale_mem_bounds hx, ?_, ?_, ?_⟩
  · intro i hi hmin
    unfold normRow normalizedFeature
    rw [mmScale_getD (by simpa), featCol_getD f hi, hmin]
    simp
  · intro i hi hmax hne
    unfold normRow normalizedFeature
    rw [mmScale_getD (by simpa), featCol_getD f hi, hmax]
    rw [if_neg (fun hc => hne (by linarith))]
    exact div_self (sub_ne_zero.mpr (Ne.symm hne))
  · intro hconst i
    unfold normRow normalizedFeature
    rcases em (i < df.length) with hi | hi
    · rw [mmScale_getD (by simpa), featCol_getD f hi]
      have hmem : featVal (df.getD i default) f ∈ df.map (fun p => featVal p f) := by
        rw [← featCol_getD f hi, List.getD_eq_getElem _ _ (by simpa)]
        exact List.getElem_mem _
      have h1 := colMin_le hmem
      have h2 := le_colMax hmem
      have hx : featVal (df.getD i default) f = colMin (df.map (fun p => featVal p f)) := by
        linarith
      rw [hx]
      simp
    · apply List.getD_eq_default
      rw [mmScale_length, List.length_map]
      omega

/-- C5 witness: the normalization facts at the concrete two-player table
and the ownership feature. -/
theorem c5_witness :
    (∀ x ∈ normalizedFeature dfC1 fOwnership, 0 ≤ x ∧ x ≤ 1) ∧
    (∀ i, i < dfC1.length →
      featVal (dfC1.getD i default) fOwnership =
        colMin (dfC1.map (fun p => featVal p fOwnership)) →
      normRow dfC1 i fOwnership = 0) ∧
    (∀ i, i < dfC1.length →
      featVal (dfC1.getD i default) fOwnership =
        colMax (dfC1.map (fun p => featVal p fOwnership)) →
      colMin (dfC1.map (fun p => featVal p fOwnership)) ≠
        colMax (dfC1.map (fun p => featVal p fOwnership)) →
      normRow dfC1 i fOwnership = 1) ∧
    (colMin (dfC1.map (fun p => featVal p fOwnership)) =
        colMax (dfC1.map (fun p => featVal p fOwnership)) →
      ∀ i, normRow dfC1 i fOwnership = 0) :=
  c5_minmax_norm dfC1 (by simp [dfC1]) fOwnership (by simp [features, WEIGHTS])

/-- C1 (amended): the ownership term is monotone NONDECREASING in raw
ownership: over a fixed population, the lower-ownership player's ownership
contribution is at most (not at least) the higher-ownership player's - the
inversion and the negative weight cancel rather than reinforce. -/
theorem c1_ownership_monotone (df : List Player) {i j : Nat}
    (hi : i < df.length) (hj : j < df.length)
    (hij : (df.getD i default).ownership ≤ (df.getD j default).ownership) :
    ownershipContrib df i ≤ ownershipContrib df j := by
  unfold ownershipContrib
  rw [invNormRow_own, invNormRow_own]
  have hdf : df ≠ [] := by
    intro hc
    subst hc
    simp at hi
  have hcolne : df.map (fun p => featVal p fOwnership) ≠ [] := by
    simpa using hdf
  have hdpos := mmScale_d_pos hcolne
  have hni : normRow df i fOwnership =
      (featVal (df.getD i default) fOwnership -
        colMin (df.map (fun p => featVal p fOwnership))) /
      (if colMax (df.map (fun p => featVal p fOwnership)) -
          colMin (df.map (fun p => featVal p fOwnership)) = 0 then 1
        else colMax (df.map (fun p => featVal p fOwnership)) -
          colMin (df.map (fun p => featVal p fOwnership))) := by
    unfold normRow normalizedFeature
    rw [mmScale_getD (by simpa), featCol_getD _ hi]
  have hnj : normRow df j fOwnership =
      (featVal (df.getD j default) fOwnership -
        colMin (df.map (fun p => featVal p fOwnership))) /
      (if colMax (df.map (fun p => featVal p fOwnership)) -
          colMin (df.map (fun p => featVal p fOwnership)) = 0 then 1
        else colMax (df.map (fun p => featVal p fOwnership)) -
          colMin (df.map (fun p => featVal p fOwnership))) := by
    unfold normRow normalizedFeature
    rw [mmScale_getD (by simpa), featCol_getD _ hj]
  have hmono : normRow df i fOwnership ≤ normRow df j fOwnership := by
    rw [hni, hnj]
    apply (div_le_div_right hdpos).mpr
    simp only [featVal_own]
    linarith
  nlinarith [hmono]

/-- C1 counterexample: with ownership `0` versus `10` (all else equal) the
lower-ownership player's ownership contribution is `-0.05`, strictly BELOW
the higher-ownership player's `0` - the opposite of the claimed `≥`. -/
theorem c1_counterexample :
    (dfC1.getD 0 default).ownership < (dfC1.getD 1 default).ownership ∧
    ¬ (ownershipContrib dfC1 1 ≤ ownershipContrib dfC1 0) := by
  constructor
  · norm_num [dfC1, mkP]
  · norm_num [ownershipContrib, invNormRow_own, normRow, normalizedFeature,
      mmScale, colMin, colMax, featVal_own, dfC1, mkP, min_def, max_def,
      List.foldl_cons, List.foldl_nil]

/-- C1 witness: the monotonicity applied to the concrete pair. -/
theorem c1_witness : ownershipContrib dfC1 0 ≤ ownershipContrib dfC1 1 :=
  c1_ownership_monotone dfC1 (by simp [dfC1]) (by simp [dfC1])
    (by norm_num [dfC1, mkP])

/-- C6 (amended): for two players identical in all seven scoring features,
one below the 0.6 minutes threshold and the other at or above it, the
penalized player's final score never exceeds the other's PROVIDED their
shared pre-penalty raw score is nonnegative; when the raw score is
negative the 30% reduction RAISES the score and the low-minutes player
outranks (see the counterexample). -/
theorem c6_rotation_penalty (df : List Player) {i j : Nat}
    (hi : i < df.length) (hj : j < df.length)
    (hfeat : ∀ f ∈ features, featVal (df.getD i default) f = featVal (df.getD j default) f)
    (hmi : (df.getD i default).minutes_pct < 0.6)
    (hmj : (0.6 : ℚ) ≤ (df.getD j default).minutes_pct)
    (hraw : 0 ≤ rawScore df i) :
    finalScore df i ≤ finalScore df j := by
  have hn : ∀ f ∈ features, normRow df i f = normRow df j f := by
    intro f hf
    unfold normRow normalizedFeature
    rw [mmScale_getD (by simpa), mmScale_getD (by simpa),
      featCol_getD f hi, featCol_getD f hj, hfeat f hf]
  have hF : fForm ∈ features := by simp [features, WEIGHTS]
  have hP : fPpg ∈ features := by simp [features, WEIGHTS]
  have hE : fFixtureEase ∈ features := by simp [features, WEIGHTS]
  have hX : fXgi ∈ features := by simp [features, WEIGHTS]
  have hI : fIct ∈ features := by simp [features, WEIGHTS]
  have hB : fBonus ∈ features := by simp [features, WEIGHTS]
  have hO : fOwnership ∈ features := by simp [features, WEIGHTS]
  have hraw2 : rawScore df i = rawScore df j := by
    rw [rawScore_expand, rawScore_expand, invNormRow_form, invNormRow_form,
      invNormRow_ppg, invNormRow_ppg, invNormRow_fe, invNormRow_fe,
      invNormRow_xgi, invNormRow_xgi, invNormRow_ict, invNormRow_ict,
      invNormRow_bonus, invNormRow_bonus, invNormRow_own, invNormRow_own,
      hn fForm hF, hn fPpg hP, hn fFixtureEase hE, hn fXgi hX, hn fIct hI,
      hn fBonus hB, hn fOwnership hO]
  unfold finalScore penalScore
  rw [if_pos hmi, if_neg (not_lt.mpr hmj), ← hraw2]
  exact round1_le_round1 (by nlinarith)

/-- C6 counterexample: rows 1 and 2 of `dfC6` are identical in every
feature (shared raw score `-0.05`), row 1 is below the minutes threshold,
row 2 above - yet the penalized row 1 OUTRANKS row 2 in the engine's
output (`108.0, -3.5, -5.0` gives the id order `3, 1, 2`), because the 30%
cut makes a negative raw score larger. -/
theorem c6_counterexample :
    ((score_players dfC6).toOption.getD []).map (fun p => p.id) = [3, 1, 2] ∧
    (dfC6.getD 0 default).minutes_pct < 0.6 ∧
    (0.6 : ℚ) ≤ (dfC6.getD 1 default).minutes_pct ∧
    rawScore dfC6 0 = rawScore dfC6 1 ∧
    (∀ f ∈ features, featVal (dfC6.getD 0 default) f = featVal (dfC6.getD 1 default) f) := by
  have hEval : score_players dfC6 =
      .ok [{ mkP 3 1 1 1 1 1 1 10 0.9 with score := some 108 },
           { mkP 1 0 0 0 0 0 0 0 0.5 with score := some (-3.5) },
           { mkP 2 0 0 0 0 0 0 0 0.9 with score := some (-5) }] := by
    rw [score_players_ok (by simp [dfC6])]
    norm_num [score_sort, scoredPlayers, applyIdx, nargsortDesc,
      npArgsortQ_small, npInsSort, npInsertIdx, List.foldl_cons, List.foldl_nil,
      finalScore, penalScore, rawScore, WEIGHTS, invNormRow_form, invNormRow_ppg,
      invNormRow_fe, invNormRow_xgi, invNormRow_ict, invNormRow_bonus, invNormRow_own,
      normRow, normalizedFeature, mmScale, colMin, colMax,
      featVal_form, featVal_ppg, featVal_fe, featVal_xgi, featVal_ict, featVal_bonus,
      featVal_own, dfC6, mkP, round1, round_eq, range3, min_def, max_def]
  refine ⟨by rw [hEval]; norm_num [mkP, Except.toOption], by norm_num [dfC6, mkP],
    by norm_num [dfC6, mkP], ?_, ?_⟩
  · norm_num [rawScore, WEIGHTS, invNormRow_form, invNormRow_ppg,
      invNormRow_fe, invNormRow_xgi, invNormRow_ict, invNormRow_bonus, invNormRow_own,
      normRow, normalizedFeature, mmScale, colMin, colMax,
      featVal_form, featVal_ppg, featVal_fe, featVal_xgi, featVal_ict, featVal_bonus,
      featVal_own, dfC6, mkP, min_def, max_def, List.foldl_cons, List.foldl_nil]
  · intro f hf
    simp only [features, WEIGHTS, List.map_cons, List.map_nil, List.mem_cons,
      List.not_mem_nil, or_false] at hf
    rcases hf with rfl | rfl | rfl | rfl | rfl | rfl | rfl <;>
      norm_num [featVal_form, featVal_ppg, featVal_fe, featVal_xgi, featVal_ict,
        featVal_bonus, featVal_own, dfC6, mkP]

/-- C6 witness: the amended penalty monotonicity at the concrete table
with a nonnegative shared raw score. -/
theorem c6_witness : finalScore dfW6 0 ≤ finalScore dfW6 1 := by
  apply c6_rotation_penalty dfW6 (by simp [dfW6]) (by simp [dfW6])
  · intro f hf
    simp only [features, WEIGHTS, List.map_cons, List.map_nil, List.mem_cons,
      List.not_mem_nil, or_false] at hf
    rcases hf with rfl | rfl | rfl | rfl | rfl | rfl | rfl <;>
      norm_num [featVal_form, featVal_ppg, featVal_fe, featVal_xgi, featVal_ict,
        featVal_bonus, featVal_own, dfW6, mkP]
  · norm_num [dfW6, mkP]
  · norm_num [dfW6, mkP]
  · norm_num [rawScore, WEIGHTS, invNormRow_form, invNormRow_ppg,
      invNormRow_fe, invNormRow_xgi, invNormRow_ict, invNormRow_bonus, invNormRow_own,
      normRow, normalizedFeature, mmScale, colMin, colMax,
      featVal_form, featVal_ppg, featVal_fe, featVal_xgi, featVal_ict, featVal_bonus,
      featVal_own, dfW6, mkP, min_def, max_def, List.foldl_cons, List.foldl_nil]

/-- A predicate with a unique witness in the list is found at it. -/
theorem find_of_unique {α : Type} (p : α → Bool) (l : List α) (a : α)
    (ha : a ∈ l) (hpa : p a = true) (huniq : ∀ b ∈ l, p b = true → b = a) :
    l.find? p = some a := by
  induction l with
  | nil => cases ha
  | cons x xs ih =>
    by_cases hx : p x = true
    · have hxa : x = a := huniq x (List.mem_cons_self x xs) hx
      subst hxa
      rw [List.find?_cons_of_pos _ hx]
    · rw [List.find?_cons_of_neg _ hx]
      have hax : a ∈ xs := by
        rcases List.mem_cons.mp ha with h | h
        · subst h
          exact absurd hpa hx
        · exact h
      exact ih hax (fun b hb hpb => huniq b (List.mem_cons_of_mem x hb) hpb)

/-- C8: on a nonempty event list the current gameweek is the id of the
(unique) event flagged `is_next`, and the id of the last event when none
is flagged. -/
theorem c8_current_gw (events : List Event) (h : events ≠ []) :
    ((∀ e ∈ events, e.is_next = false) →
      current_gw events = .ok ((events.getLast h).id)) ∧
    (∀ e ∈ events, e.is_next = true →
      (∀ e2 ∈ events, e2.is_next = true → e2 = e) →
      current_gw events = .ok e.id) := by
  have hlast : events.getLast? = some (events.getLast h) :=
    List.getLast?_eq_getLast events h
  constructor
  · intro hnone
    have hfind : events.find? (fun e => e.is_next) = none :=
      List.find?_eq_none.mpr (fun x hx => by simp [hnone x hx])
    simp [current_gw, hlast, hfind]
  · intro e he hnext huniq
    have hfind : events.find? (fun e => e.is_next) = some e :=
      find_of_unique _ events e he hnext huniq
    simp [current_gw, hlast, hfind]

/-- C8 witness: both branches at concrete event lists. -/
theorem c8_witness : current_gw evW = Except.ok 2 ∧ current_gw evW2 = Except.ok 9 := by
  constructor
  · exact (c8_current_gw evW (by simp [evW])).2 { id := 2, is_next := true }
      (by simp [evW]) rfl (by decide)
  · have h9 := (c8_current_gw evW2 (by simp [evW2])).1 (by decide)
    rw [h9]
    simp [evW2, List.getLast]

/-!
Evaluation lemmas for the sort on all-equal keys: with every key equal the
insertion steps append at the end and the dedicated scans stop at once.
-/

theorem foldl_min_allEq {xs : List ℚ} {a : ℚ} (h : ∀ x ∈ xs, x = a) :
    xs.foldl min a = a := by
  induction xs with
  | nil => rfl
  | cons b bs ih =>
    have hb : b = a := h b (List.mem_cons_self b bs)
    subst hb
    simp only [List.foldl_cons, min_self]
    exact ih (fun x hx => h x (List.mem_cons_of_mem b hx))

theorem foldl_max_allEq {xs : List ℚ} {a : ℚ} (h : ∀ x ∈ xs, x = a) :
    xs.foldl max a = a := by
  induction xs with
  | nil => rfl
  | cons b bs ih =>
    have hb : b = a := h b (List.mem_cons_self b bs)
    subst hb
    simp only [List.foldl_cons, max_self]
    exact ih (fun x hx => h x (List.mem_cons_of_mem b hx))

/-- A constant column scales to all zeros, entrywise. -/
theorem mmScale_allEq {l : List ℚ} {c : ℚ} (hc : ∀ x ∈ l, x = c) (i : Nat) :
    (mmScale l).getD i 0 = 0 := by
  rcases em (i < l.length) with hi | hi
  · cases l with
    | nil => simp at hi
    | cons a as =>
      have ha : a = c := hc a (List.mem_cons_self a as)
      have hmin : colMin (a :: as) = c := by
        unfold colMin
        rw [ha]
        exact foldl_min_allEq (fun x hx => hc x (List.mem_cons_of_mem a hx))
      have hmax : colMax (a :: as) = c := by
        unfold colMax
        rw [ha]
        exact foldl_max_allEq (fun x hx => hc x (List.mem_cons_of_mem a hx))
      rw [mmScale_getD hi, hmin, hmax]
      have hx : (a :: as).getD i 0 = c := by
        rw [List.getD_eq_getElem _ _ hi]
        exact hc _ (List.getElem_mem hi)
      rw [hx]
      simp
  · rw [List.getD_eq_default]
    rw [mmScale_length]
    omega

/-- Inserting an index among all-equal keys appends it at the end. -/
theorem npInsertIdx_allEq {v : List ℚ} {c : ℚ} {i : Nat} (acc : List Nat)
    (hi : v.getD i 0 = c) (hacc : ∀ k ∈ acc, v.getD k 0 = c) :
    npInsertIdx v i acc = acc ++ [i] := by
  induction acc with
  | nil => rfl
  | cons j js ih =>
    unfold npInsertIdx
    rw [hi, hacc j (List.mem_cons_self j js)]
    rw [if_neg (lt_irrefl c)]
    rw [ih (fun k hk => hacc k (List.mem_cons_of_mem j hk))]
    simp

/-- Insertion argsort of all-equal keys is the identity. -/
theorem npInsSort_allEq {v : List ℚ} {c : ℚ} (ts : List Nat)
    (hts : ∀ k ∈ ts, v.getD k 0 = c) : npInsSort v ts = ts := by
  unfold npInsSort
  suffices h : ∀ acc, (∀ k ∈ acc, v.getD k 0 = c) →
      ts.foldl (fun acc i => npInsertIdx v i acc) acc = acc ++ ts by
    simpa using h [] (by intro k hk; cases hk)
  induction ts with
  | nil => intro acc _; simp
  | cons t ts' ih =>
    intro acc hacc
    simp only [List.foldl_cons]
    rw [npInsertIdx_allEq acc (hts t (List.mem_cons_self t ts'))
      (fun k hk => hacc k hk)]
    rw [ih (fun k hk => hts k (List.mem_cons_of_mem t hk)) (acc ++ [t])
      ?_]
    · simp
    · intro k hk
      rcases List.mem_append.mp hk with h | h
      · exact hacc k h
      · rcases List.mem_singleton.mp h with rfl
        exact hts k (List.mem_cons_self k ts')

/-- Segment insertion sort of all-equal keys leaves the list unchanged. -/
theorem insRange_allEq {v : List ℚ} {c : ℚ} (ts : List Nat) {lo hi : Nat}
    (hlo : lo ≤ hi + 1) (hts : ∀ k ∈ ts, v.getD k 0 = c) :
    insRange v ts lo hi = ts := by
  unfold insRange
  rw [npInsSort_allEq ((ts.drop lo).take (hi + 1 - lo))
    (fun k hk => hts k (List.mem_of_mem_drop (List.mem_of_mem_take hk)))]
  have hdd : ts.drop (hi + 1) = (ts.drop lo).drop (hi + 1 - lo) := by
    rw [List.drop_drop]
    congr 1
    omega
  rw [hdd, List.append_assoc, List.take_append_drop, List.take_append_drop]


theorem dfC2_length : dfC2.length = 17 := by simp [dfC2]

theorem dfC2_getD {k : Nat} (hk : k < 17) :
    dfC2.getD k default = mkP (k + 1) 0 0 0 0 0 0 0 0.9 := by
  have hl : k < dfC2.length := by rwa [dfC2_length]
  rw [List.getD_eq_getElem _ _ hl]
  simp [dfC2, List.getElem_map, List.getElem_range]

/-- Every feature column of `dfC2` is constant, so every normalized entry
is zero. -/
theorem normRow_dfC2 (f : String) (hf : f ∈ features) (i : Nat) :
    normRow dfC2 i f = 0 := by
  unfold normRow normalizedFeature
  apply mmScale_allEq (c := 0)
  intro x hx
  simp only [dfC2, List.map_map, List.mem_map, List.mem_range] at hx
  obtain ⟨k, hk, rfl⟩ := hx
  simp only [features, WEIGHTS, List.map_cons, List.map_nil, List.mem_cons,
    List.not_mem_nil, or_false] at hf
  rcases hf with rfl | rfl | rfl | rfl | rfl | rfl | rfl <;>
    norm_num [featVal_form, featVal_ppg, featVal_fe, featVal_xgi, featVal_ict,
      featVal_bonus, featVal_own, mkP, Function.comp]

theorem rawScore_dfC2 (i : Nat) : rawScore dfC2 i = -(1 / 20) := by
  rw [rawScore_expand, invNormRow_form, invNormRow_ppg, invNormRow_fe,
    invNormRow_xgi, invNormRow_ict, invNormRow_bonus, invNormRow_own,
    normRow_dfC2 fForm (by simp [features, WEIGHTS]) i,
    normRow_dfC2 fPpg (by simp [features, WEIGHTS]) i,
    normRow_dfC2 fFixtureEase (by simp [features, WEIGHTS]) i,
    normRow_dfC2 fXgi (by simp [features, WEIGHTS]) i,
    normRow_dfC2 fIct (by simp [features, WEIGHTS]) i,
    normRow_dfC2 fBonus (by simp [features, WEIGHTS]) i,
    normRow_dfC2 fOwnership (by simp [features, WEIGHTS]) i]
  norm_num

theorem finalScore_dfC2 {i : Nat} (hi : i < 17) : finalScore dfC2 i = -5 := by
  unfold finalScore penalScore
  rw [dfC2_getD hi]
  rw [if_neg (by norm_num [mkP])]
  rw [rawScore_dfC2]
  norm_num [round1, round_eq]

theorem keys_dfC2 : (scoredPlayers dfC2).map (fun p => p.score.getD 0) = vC2 := by
  unfold scoredPlayers
  rw [dfC2_length, List.map_map, range17]
  norm_num [finalScore_dfC2, vC2, Function.comp]

theorem nargsortDesc_c2 : nargsortDesc vC2 = permC2 := by
  have hlog : Nat.log2 17 = 4 := by norm_num [Nat.log2]
  have hts9 : ∀ k ∈ ([0, 14, 13, 12, 11, 10, 9, 15, 8, 6, 5, 4, 3, 2, 1, 7, 16] : List Nat), ([-5, -5, -5, -5, -5, -5, -5, -5, -5, -5, -5, -5, -5, -5, -5, -5, -5] : List ℚ).getD k 0 = -5 := by
    intro k hk
    fin_cases hk <;> norm_num
  have hit0 : partLoop ([-5, -5, -5, -5, -5, -5, -5, -5, -5, -5, -5, -5, -5, -5, -5, -5, -5] : List ℚ) (-5) 18 [0, 1, 2, 3, 4, 5, 6, 7, 15, 9, 10, 11, 12, 13, 14, 8, 16] 0 15 =
      partLoop ([-5, -5, -5, -5, -5, -5, -5, -5, -5, -5, -5, -5, -5, -5, -5, -5, -5] : List ℚ) (-5) 17 [0, 14, 2, 3, 4, 5, 6, 7, 15, 9, 10, 11, 12, 13, 1, 8, 16] 1 14 := by
    rw [partLoop_step _ _ _ _ _ (by norm_num)]
    norm_num
    rw [scanUp_step _ _ _ _ (by norm_num), scanDown_step _ _ _ _ (by norm_num)]
    norm_num [keyAt, lswap]
  have hit1 : partLoop ([-5, -5, -5, -5, -5, -5, -5, -5, -5, -5, -5, -5, -5, -5, -5, -5, -5] : List ℚ) (-5) 17 [0, 14, 2, 3, 4, 5, 6, 7, 15, 9, 10, 11, 12, 13, 1, 8, 16] 1 14 =
      partLoop ([-5, -5, -5, -5, -5, -5, -5, -5, -5, -5, -5, -5, -5, -5, -5, -5, -5] : List ℚ) (-5) 16 [0, 14, 13, 3, 4, 5, 6, 7, 15, 9, 10, 11, 12, 2, 1, 8, 16] 2 13 := by
    rw [partLoop_step _ _ _ _ _ (by norm_num)]
    norm_num
    rw [scanUp_step _ _ _ _ (by norm_num), scanDown_step _ _ _ _ (by norm_num)]
    norm_num [keyAt, lswap]
  have hit2 : partLoop ([-5, -5, -5, -5, -5, -5, -5, -5, -5, -5, -5, -5, -5, -5, -5, -5, -5] : List ℚ) (-5) 16 [0, 14, 13, 3, 4, 5, 6, 7, 15, 9, 10, 11, 12, 2, 1, 8, 16] 2 13 =
      partLoop ([-5, -5, -5, -5, -5, -5, -5, -5, -5, -5, -5, -5, -5, -5, -5, -5, -5] : List ℚ) (-5) 15 [0, 14, 13, 12, 4, 5, 6, 7, 15, 9, 10, 11, 3, 2, 1, 8, 16] 3 12 := by
    rw [partLoop_step _ _ _ _ _ (by norm_num)]
    norm_num
    rw [scanUp_step _ _ _ _ (by norm_num), scanDown_step _ _ _ _ (by norm_num)]
    norm_num [keyAt, lswap]
  have hit3 : partLoop ([-5, -5, -5, -5, -5, -5, -5, -5, -5, -5, -5, -5, -5, -5, -5, -5, -5] : List ℚ) (-5) 15 [0, 14, 13, 12, 4, 5, 6, 7, 15, 9, 10, 11, 3, 2, 1, 8, 16] 3 12 =
      partLoop ([-5, -5, -5, -5, -5, -5, -5, -5, -5, -5, -5, -5, -5, -5, -5, -5, -5] : List ℚ) (-5) 14 [0, 14, 13, 12, 11, 5, 6, 7, 15, 9, 10, 4, 3, 2, 1, 8, 16] 4 11 := by
    rw [partLoop_step _ _ _ _ _ (by norm_num)]
    norm_num
    rw [scanUp_step _ _ _ _ (by norm_num), scanDown_step _ _ _ _ (by norm_num)]
    norm_num [keyAt, lswap]
  have hit4 : partLoop ([-5, -5, -5, -5, -5, -5, -5, -5, -5, -5, -5, -5, -5, -5, -5, -5, -5] : List ℚ) (-5) 14 [0, 14, 13, 12, 11, 5, 6, 7, 15, 9, 10, 4, 3, 2, 1, 8, 16] 4 11 =
      partLoop ([-5, -5, -5, -5, -5, -5, -5, -5, -5, -5, -5, -5, -5, -5, -5, -5, -5] : List ℚ) (-5) 13 [0, 14, 13, 12, 11, 10, 6, 7, 15, 9, 5, 4, 3, 2, 1, 8, 16] 5 10 := by
    rw [partLoop_step _ _ _ _ _ (by norm_num)]
    norm_num
    rw [scanUp_step _ _ _ _ (by norm_num), scanDown_step _ _ _ _ (by norm_num)]
    norm_num [keyAt, lswap]
  have hit5 : partLoop ([-5, -5, -5, -5, -5, -5, -5, -5, -5, -5, -5, -5, -5, -5, -5, -5, -5] : List ℚ) (-5) 13 [0, 14, 13, 12, 11, 10, 6, 7, 15, 9, 5, 4, 3, 2, 1, 8, 16] 5 10 =
      partLoop ([-5, -5, -5, -5, -5, -5, -5, -5, -5, -5, -5, -5, -5, -5, -5, -5, -5] : List ℚ) (-5) 12 [0, 14, 13, 12, 11, 10, 9, 7, 15, 6, 5, 4, 3, 2, 1, 8, 16] 6 9 := by
    rw [partLoop_step _ _ _ _ _ (by norm_num)]
    norm_num
    rw [scanUp_step _ _ _ _ (by norm_num), scanDown_step _ _ _ _ (by norm_num)]
    norm_num [keyAt, lswap]
  have hit6 : partLoop ([-5, -5, -5, -5, -5, -5, -5, -5, -5, -5, -5, -5, -5, -5, -5, -5, -5] : List ℚ) (-5) 12 [0, 14, 13, 12, 11, 10, 9, 7, 15, 6, 5, 4, 3, 2, 1, 8, 16] 6 9 =
      partLoop ([-5, -5, -5, -5, -5, -5, -5, -5, -5, -5, -5, -5, -5, -5, -5, -5, -5] : List ℚ) (-5) 11 [0, 14, 13, 12, 11, 10, 9, 15, 7, 6, 5, 4, 3, 2, 1, 8, 16] 7 8 := by
    rw [partLoop_step _ _ _ _ _ (by norm_num)]
    norm_num
    rw [scanUp_step _ _ _ _ (by norm_num), scanDown_step _ _ _ _ (by norm_num)]
    norm_num [keyAt, lswap]
  have hit7 : partLoop ([-5, -5, -5, -5, -5, -5, -5, -5, -5, -5, -5, -5, -5, -5, -5, -5, -5] : List ℚ) (-5) 11 [0, 14, 13, 12, 11, 10, 9, 15, 7, 6, 5, 4, 3, 2, 1, 8, 16] 7 8 = ([0, 14, 13, 12, 11, 10, 9, 15, 7, 6, 5, 4, 3, 2, 1, 8, 16], 8) := by
    rw [partLoop_step _ _ _ _ _ (by norm_num)]
    norm_num
    rw [scanUp_step _ _ _ _ (by norm_num), scanDown_step _ _ _ _ (by norm_num)]
    norm_num [keyAt, lswap]
  have hloop : partLoop ([-5, -5, -5, -5, -5, -5, -5, -5, -5, -5, -5, -5, -5, -5, -5, -5, -5] : List ℚ) (-5) 18 [0, 1, 2, 3, 4, 5, 6, 7, 15, 9, 10, 11, 12, 13, 14, 8, 16] 0 15 = ([0, 14, 13, 12, 11, 10, 9, 15, 7, 6, 5, 4, 3, 2, 1, 8, 16], 8) := by
    rw [hit0, hit1, hit2, hit3, hit4, hit5, hit6, hit7]
  have hps : partStep ([-5, -5, -5, -5, -5, -5, -5, -5, -5, -5, -5, -5, -5, -5, -5, -5, -5] : List ℚ) [0, 1, 2, 3, 4, 5, 6, 7, 8, 9, 10, 11, 12, 13, 14, 15, 16] 0 16 = ([0, 14, 13, 12, 11, 10, 9, 15, 8, 6, 5, 4, 3, 2, 1, 7, 16], 8) := by
    unfold partStep
    norm_num [keyAt, lswap]
    rw [hloop]
    norm_num [lswap]
  have hinner : aqsortRec ([-5, -5, -5, -5, -5, -5, -5, -5, -5, -5, -5, -5, -5, -5, -5, -5, -5] : List ℚ) 17 [0, 14, 13, 12, 11, 10, 9, 15, 8, 6, 5, 4, 3, 2, 1, 7, 16] 9 16 7 = ([0, 14, 13, 12, 11, 10, 9, 15, 8, 6, 5, 4, 3, 2, 1, 7, 16], 7) := by
    rw [aqsortRec_small _ _ _ (by norm_num) (by norm_num)]
    rw [insRange_allEq _ (by omega) hts9]
  have houter : aqsortRec ([-5, -5, -5, -5, -5, -5, -5, -5, -5, -5, -5, -5, -5, -5, -5, -5, -5] : List ℚ) 17 [0, 14, 13, 12, 11, 10, 9, 15, 8, 6, 5, 4, 3, 2, 1, 7, 16] 0 7 7 = ([0, 14, 13, 12, 11, 10, 9, 15, 8, 6, 5, 4, 3, 2, 1, 7, 16], 7) := by
    rw [aqsortRec_small _ _ _ (by norm_num) (by norm_num)]
    rw [insRange_allEq _ (by omega) hts9]
  have hq : npArgsortQ ([-5, -5, -5, -5, -5, -5, -5, -5, -5, -5, -5, -5, -5, -5, -5, -5, -5] : List ℚ) = [0, 14, 13, 12, 11, 10, 9, 15, 8, 6, 5, 4, 3, 2, 1, 7, 16] := by
    unfold npArgsortQ
    norm_num [hlog, range17]
    rw [aqsortRec_step _ _ _ _ _ (by norm_num)]
    norm_num
    rw [hps]
    norm_num
    rw [hinner]
    norm_num
    rw [houter]
  show nargsortDesc vC2 = permC2
  unfold nargsortDesc vC2 permC2
  norm_num [range17]
  rw [hq]
  norm_num

theorem score_players_dfC2 :
    score_players dfC2 = .ok (applyIdx permC2 (scoredPlayers dfC2)) := by
  rw [score_players_ok (by simp [dfC2])]
  unfold score_sort
  rw [keys_dfC2, nargsortDesc_c2]

/-- C2 counterexample: seventeen players identical in every feature (ids
1..17) all tie at score `-5.0`, yet the engine's output lists them in the
order `1, 10, 16, 15, 14, 13, 12, 11, 9, 2, 8, 7, 6, 5, 4, 3, 17` - the
deterministic permutation of numpy's quicksort partition pass - not in the
original input order, so the tie-break is NOT stable. -/
theorem c2_counterexample :
    (∀ r ∈ (score_players dfC2).toOption.getD [], r.score = some (-5)) ∧
    ((score_players dfC2).toOption.getD []).map (fun p => p.id) ≠
      dfC2.map (fun p => p.id) := by
  have hout := score_players_dfC2
  constructor
  · intro r hr
    rw [hout] at hr
    simp only [Except.toOption, Option.getD_some] at hr
    unfold applyIdx at hr
    simp only [List.mem_map] at hr
    obtain ⟨i, hip, rfl⟩ := hr
    have hi17 : i < 17 := by
      have hall : ∀ k ∈ permC2, k < 17 := by decide
      exact hall i hip
    rw [scoredPlayers_getD (by rw [dfC2_length]; exact hi17)]
    simp [finalScore_dfC2 hi17]
  · rw [hout]
    have hid : ∀ k, k < 17 → ((scoredPlayers dfC2).getD k default).id = k + 1 := by
      intro k hk
      rw [scoredPlayers_getD (by rw [dfC2_length]; exact hk), dfC2_getD hk]
      rfl
    have hmap : (applyIdx permC2 (scoredPlayers dfC2)).map (fun p => p.id) = idsC2 := by
      unfold applyIdx
      rw [List.map_map]
      rw [show permC2 = [0, 9, 15, 14, 13, 12, 11, 10, 8, 1, 7, 6, 5, 4, 3, 2, 16] from rfl]
      simp only [List.map_cons, List.map_nil, Function.comp_apply]
      rw [hid 0 (by norm_num), hid 9 (by norm_num), hid 15 (by norm_num),
        hid 14 (by norm_num), hid 13 (by norm_num), hid 12 (by norm_num),
        hid 11 (by norm_num), hid 10 (by norm_num), hid 8 (by norm_num),
        hid 1 (by norm_num), hid 7 (by norm_num), hid 6 (by norm_num),
        hid 5 (by norm_num), hid 4 (by norm_num), hid 3 (by norm_num),
        hid 2 (by norm_num), hid 16 (by norm_num)]
      norm_num [idsC2]
    have hin : dfC2.map (fun p => p.id) = (List.range 17).map (fun k => k + 1) := by
      unfold dfC2
      rw [List.map_map]
      rfl
    simp only [Except.toOption, Option.getD_some]
    rw [hmap, hin, range17]
    norm_num [idsC2]

/-!
Characterization of the insertion argsort on at most 16 values: it is the
unique permutation of the index range that is sorted by value with ties in
index order, which is exactly what a stable sort produces.
-/

theorem npInsertIdx_perm (v : List ℚ) (i : Nat) (acc : List Nat) :
    (npInsertIdx v i acc).Perm (i :: acc) := by
  induction acc with
  | nil => exact List.Perm.refl _
  | cons j js ih =>
    unfold npInsertIdx
    split
    · exact List.Perm.refl _
    · exact (ih.cons j).trans (List.Perm.swap i j js)

theorem npInsSort_perm (v : List ℚ) (ts : List Nat) : (npInsSort v ts).Perm ts := by
  unfold npInsSort
  suffices h : ∀ acc, (ts.foldl (fun acc i => npInsertIdx v i acc) acc).Perm (acc ++ ts) by
    simpa using h []
  induction ts with
  | nil => intro acc; simp
  | cons t ts' ih =>
    intro acc
    simp only [List.foldl_cons]
    refine (ih (npInsertIdx v t acc)).trans ?_
    refine (((npInsertIdx_perm v t acc).append_right ts').trans ?_)
    exact List.perm_middle.symm

theorem npInsertIdx_sorted {v : List ℚ} {acc : List Nat} {i : Nat}
    (hs : acc.Pairwise (ascIdxLE v)) (hb : ∀ j ∈ acc, j ≤ i) :
    (npInsertIdx v i acc).Pairwise (ascIdxLE v) := by
  induction acc with
  | nil => simp [npInsertIdx]
  | cons j js ih =>
    rw [List.pairwise_cons] at hs
    obtain ⟨hj, hjs⟩ := hs
    unfold npInsertIdx
    split
    · rename_i hlt
      refine List.Pairwise.cons ?_ (List.Pairwise.cons hj hjs)
      intro z hz
      rcases List.mem_cons.mp hz with rfl | hz2
      · exact Or.inl hlt
      · rcases hj z hz2 with h | ⟨heq, _⟩
        · exact Or.inl (lt_trans hlt h)
        · exact Or.inl (heq ▸ hlt)
    · rename_i hnlt
      refine List.Pairwise.cons ?_
        (ih hjs (fun k hk => hb k (List.mem_cons_of_mem j hk)))
      intro z hz
      have hz2 := (npInsertIdx_perm v i js).mem_iff.mp hz
      rcases List.mem_cons.mp hz2 with rfl | hz3
      · rcases lt_or_eq_of_le (le_of_not_lt hnlt) with h | h
        · exact Or.inl h
        · exact Or.inr ⟨h, hb j (List.mem_cons_self j js)⟩
      · exact hj z hz3

theorem npInsSort_sorted {v : List ℚ} {ts : List Nat} (hts : ts.Pairwise (· ≤ ·)) :
    (npInsSort v ts).Pairwise (ascIdxLE v) := by
  unfold npInsSort
  suffices h : ∀ (us : List Nat) (acc : List Nat), us.Pairwise (· ≤ ·) →
      acc.Pairwise (ascIdxLE v) → (∀ j ∈ acc, ∀ i ∈ us, j ≤ i) →
      (us.foldl (fun acc i => npInsertIdx v i acc) acc).Pairwise (ascIdxLE v) by
    exact h ts [] hts (by simp) (by simp)
  intro us
  induction us with
  | nil =>
    intro acc _ hacc _
    simpa using hacc
  | cons t us' ih =>
    intro acc hp hacc hcross
    rw [List.pairwise_cons] at hp
    simp only [List.foldl_cons]
    apply ih _ hp.2
    · exact npInsertIdx_sorted hacc (fun j hj => hcross j hj t (List.mem_cons_self t us'))
    · intro j hj i2 hi2
      have hj2 := (npInsertIdx_perm v t acc).mem_iff.mp hj
      rcases List.mem_cons.mp hj2 with rfl | hj3
      · exact hp.1 i2 hi2
      · exact hcross j hj3 i2 (List.mem_cons_of_mem t hi2)

theorem revRange_getD {n k : Nat} (hk : k < n) :
    (List.range n).reverse.getD k 0 = n - 1 - k := by
  have h1 : k < (List.range n).reverse.length := by simpa
  rw [List.getD_eq_getElem _ _ h1]
  simp [List.getElem_reverse, List.getElem_range]

theorem rev_getD {v : List ℚ} {k : Nat} (hk : k < v.length) :
    v.reverse.getD k 0 = v.getD (v.length - 1 - k) 0 := by
  have h1 : k < v.reverse.length := by simpa
  have h2 : v.length - 1 - k < v.length := by omega
  rw [List.getD_eq_getElem _ _ h1, List.getD_eq_getElem _ _ h2]
  simp [List.getElem_reverse]

theorem range_map_getD {n : Nat} {l : List Nat} (hlen : l.length = n) :
    (List.range n).map (fun k => l.getD k 0) = l := by
  apply List.ext_getElem
  · simp [hlen]
  · intro i h1 h2
    have hi : i < l.length := by omega
    simp [List.getElem_map, List.getElem_range, List.getD_eq_getElem _ _ hi,
      List.getElem?_eq_getElem hi]

/-- On at most 16 values the pandas descending indexer is a permutation of
the index range. -/
theorem nargsortDesc_small_perm {v : List ℚ} (h : v.length ≤ 16) :
    (nargsortDesc v).Perm (List.range v.length) := by
  unfold nargsortDesc
  rw [npArgsortQ_small (by simpa using h)]
  rw [List.length_reverse]
  refine (List.reverse_perm _).trans ?_
  refine (((npInsSort_perm _ _).map _).trans ?_)
  rw [range_map_getD (by simp)]
  exact List.reverse_perm _

/-- On at most 16 values the pandas descending indexer lists indices in
descending value order with ties ascending by index: exactly a stable
descending sort of the index range. -/
theorem nargsortDesc_small_sorted {v : List ℚ} (h : v.length ≤ 16) :
    (nargsortDesc v).Pairwise (descIdxLE v) := by
  unfold nargsortDesc
  rw [npArgsortQ_small (by simpa using h), List.length_reverse]
  rw [List.pairwise_reverse, List.pairwise_map]
  have hsorted : (npInsSort v.reverse (List.range v.length)).Pairwise (ascIdxLE v.reverse) :=
    npInsSort_sorted ((List.pairwise_lt_range _).imp le_of_lt)
  have hmem : ∀ k ∈ npInsSort v.reverse (List.range v.length), k < v.length := by
    intro k hk
    have := (npInsSort_perm v.reverse (List.range v.length)).mem_iff.mp hk
    simpa using this
  refine hsorted.imp_of_mem ?_
  intro a b ha hb hab
  have ha' : a < v.length := hmem a ha
  have hb' : b < v.length := hmem b hb
  rw [revRange_getD ha', revRange_getD hb']
  rcases hab with hlt | ⟨heq, hle⟩
  · left
    rw [rev_getD ha', rev_getD hb'] at hlt
    exact hlt
  · right
    rw [rev_getD ha', rev_getD hb'] at heq
    exact ⟨heq.symm, by omega⟩

/-!
The spec-side stable descending insertion sort: permutation, sortedness,
stability (through the index decoration), and the relation between the
decorated and plain versions.
-/

theorem specInsertDesc_perm (x : Player) (l : List Player) :
    (specInsertDesc x l).Perm (x :: l) := by
  induction l with
  | nil => exact List.Perm.refl _
  | cons y ys ih =>
    unfold specInsertDesc
    split
    · exact List.Perm.refl _
    · exact (ih.cons y).trans (List.Perm.swap x y ys)

theorem specSortDesc_perm (l : List Player) : (specSortDesc l).Perm l := by
  induction l with
  | nil => exact List.Perm.refl _
  | cons x ys ih =>
    unfold specSortDesc at ih ⊢
    simp only [List.foldr_cons]
    exact (specInsertDesc_perm x _).trans (ih.cons x)

theorem specInsertDesc_sorted {x : Player} {l : List Player}
    (hs : l.Pairwise (fun a b => scoreKey b ≤ scoreKey a)) :
    (specInsertDesc x l).Pairwise (fun a b => scoreKey b ≤ scoreKey a) := by
  induction l with
  | nil => simp [specInsertDesc]
  | cons y ys ih =>
    rw [List.pairwise_cons] at hs
    obtain ⟨hy, hys⟩ := hs
    unfold specInsertDesc
    split
    · rename_i hle
      refine List.Pairwise.cons ?_ (List.Pairwise.cons hy hys)
      intro z hz
      rcases List.mem_cons.mp hz with rfl | hz2
      · exact hle
      · exact le_trans (hy z hz2) hle
    · rename_i hnle
      refine List.Pairwise.cons ?_ (ih hys)
      intro z hz
      have hz2 := (specInsertDesc_perm x ys).mem_iff.mp hz
      rcases List.mem_cons.mp hz2 with rfl | hz3
      · exact le_of_lt (lt_of_not_le hnle)
      · exact hy z hz3

theorem specSortDesc_sorted (l : List Player) :
    (specSortDesc l).Pairwise (fun a b => scoreKey b ≤ scoreKey a) := by
  induction l with
  | nil => simp [specSortDesc]
  | cons x ys ih =>
    unfold specSortDesc at ih ⊢
    simp only [List.foldr_cons]
    exact specInsertDesc_sorted ih

theorem specInsertDesc_cons (x y : Player) (ys : List Player) :
    specInsertDesc x (y :: ys) =
      if scoreKey y ≤ scoreKey x then x :: y :: ys else y :: specInsertDesc x ys := rfl

theorem specInsertDescP_cons (x y : Nat × Player) (ys : List (Nat × Player)) :
    specInsertDescP x (y :: ys) =
      if scoreKey y.2 ≤ scoreKey x.2 then x :: y :: ys else y :: specInsertDescP x ys := rfl

theorem specInsertDescP_perm (x : Nat × Player) (l : List (Nat × Player)) :
    (specInsertDescP x l).Perm (x :: l) := by
  induction l with
  | nil => exact List.Perm.refl _
  | cons y ys ih =>
    unfold specInsertDescP
    split
    · exact List.Perm.refl _
    · exact (ih.cons y).trans (List.Perm.swap x y ys)

theorem specSortDescP_perm (l : List (Nat × Player)) : (specSortDescP l).Perm l := by
  induction l with
  | nil => exact List.Perm.refl _
  | cons x ys ih =>
    unfold specSortDescP at ih ⊢
    simp only [List.foldr_cons]
    exact (specInsertDescP_perm x _).trans (ih.cons x)

theorem specInsertDescP_sorted {x : Nat × Player} {l : List (Nat × Player)}
    (hs : l.Pairwise descPairLE) (hb : ∀ y ∈ l, x.1 ≤ y.1) :
    (specInsertDescP x l).Pairwise descPairLE := by
  induction l with
  | nil => simp [specInsertDescP]
  | cons y ys ih =>
    rw [List.pairwise_cons] at hs
    obtain ⟨hy, hys⟩ := hs
    rw [specInsertDescP_cons]
    by_cases hle : scoreKey y.2 ≤ scoreKey x.2
    · rw [if_pos hle]
      refine List.Pairwise.cons ?_ (List.Pairwise.cons hy hys)
      intro z hz
      rcases List.mem_cons.mp hz with h1 | hz2
      · rw [h1]
        rcases lt_or_eq_of_le hle with h | h
        · exact Or.inl h
        · exact Or.inr ⟨h.symm, hb y (List.mem_cons_self y ys)⟩
      · rcases hy z hz2 with h | ⟨heq, _⟩
        · exact Or.inl (lt_of_lt_of_le h hle)
        · rcases lt_or_eq_of_le (heq ▸ hle : scoreKey z.2 ≤ scoreKey x.2) with h2 | h2
          · exact Or.inl h2
          · exact Or.inr ⟨h2.symm, hb z (List.mem_cons_of_mem y hz2)⟩
    · rw [if_neg hle]
      refine List.Pairwise.cons ?_
        (ih hys (fun z hz => hb z (List.mem_cons_of_mem y hz)))
      intro z hz
      have hz2 := (specInsertDescP_perm x ys).mem_iff.mp hz
      rcases List.mem_cons.mp hz2 with rfl | hz3
      · exact Or.inl (lt_of_not_le hle)
      · exact hy z hz3

theorem specSortDescP_sorted {l : List (Nat × Player)}
    (hl : l.Pairwise (fun a b => a.1 ≤ b.1)) :
    (specSortDescP l).Pairwise descPairLE := by
  induction l with
  | nil => simp [specSortDescP]
  | cons x ys ih =>
    rw [List.pairwise_cons] at hl
    unfold specSortDescP at ih ⊢
    simp only [List.foldr_cons]
    apply specInsertDescP_sorted (ih hl.2)
    intro y hy
    exact hl.1 y ((specSortDescP_perm ys).mem_iff.mp hy)

theorem specInsertDescP_map_snd (x : Nat × Player) (l : List (Nat × Player)) :
    (specInsertDescP x l).map Prod.snd = specInsertDesc x.2 (l.map Prod.snd) := by
  induction l with
  | nil => rfl
  | cons y ys ih =>
    rw [List.map_cons, specInsertDescP_cons, specInsertDesc_cons]
    by_cases hle : scoreKey y.2 ≤ scoreKey x.2
    · rw [if_pos hle, if_pos hle]
      simp
    · rw [if_neg hle, if_neg hle]
      simp only [List.map_cons, List.cons.injEq, true_and]
      exact ih

theorem specSortDescP_map_snd (l : List (Nat × Player)) :
    (specSortDescP l).map Prod.snd = specSortDesc (l.map Prod.snd) := by
  induction l with
  | nil => rfl
  | cons x ys ih =>
    unfold specSortDescP specSortDesc at ih ⊢
    simp only [List.foldr_cons, List.map_cons]
    rw [specInsertDescP_map_snd, ih]

theorem enum_fst_le (l : List Player) :
    l.enum.Pairwise (fun a b => a.1 ≤ b.1) := by
  have h := List.pairwise_lt_range l.length
  rw [← List.enum_map_fst l, List.pairwise_map] at h
  exact h.imp le_of_lt

theorem mem_enum_eq {l : List Player} {x : Nat × Player} (hx : x ∈ l.enum) :
    x.1 < l.length ∧ x.2 = l.getD x.1 default := by
  obtain ⟨k, hk, he⟩ := List.mem_iff_getElem.mp hx
  have hkl : k < l.length := by simpa using hk
  rw [List.getElem_enum] at he
  have h1 : x.1 = k := by rw [← he]
  have h2 : x.2 = l[k] := by rw [← he]
  subst h1
  exact ⟨hkl, by rw [h2, List.getD_eq_getElem _ _ hkl]⟩

theorem map_col_getD (g : Player → ℚ) {l : List Player} {i : Nat} (h : i < l.length) :
    (l.map g).getD i 0 = g (l.getD i default) := by
  have h2 : i < (l.map g).length := by simpa
  rw [List.getD_eq_getElem _ _ h2, List.getD_eq_getElem _ _ h, List.getElem_map]

/-- On at most 16 rows the pandas sort agrees with the spec's stable
descending insertion sort: both are the unique permutation of the rows
listing scores descending with ties in original order. -/
theorem score_sort_small {l : List Player} (h : l.length ≤ 16) :
    score_sort l = specSortDesc l := by
  set keys := l.map (fun p => p.score.getD 0) with hkeys
  have hklen : keys.length = l.length := by simp [hkeys]
  have hk16 : keys.length ≤ 16 := by rw [hklen]; exact h
  have hAperm : (nargsortDesc keys).Perm (List.range l.length) := by
    have hp := nargsortDesc_small_perm hk16
    rwa [hklen] at hp
  have hAsort : (nargsortDesc keys).Pairwise (descIdxLE keys) :=
    nargsortDesc_small_sorted hk16
  have hBperm : ((specSortDescP l.enum).map Prod.fst).Perm (List.range l.length) := by
    rw [← List.enum_map_fst l]
    exact (specSortDescP_perm l.enum).map Prod.fst
  have hBsortP : (specSortDescP l.enum).Pairwise descPairLE :=
    specSortDescP_sorted (enum_fst_le l)
  have hmemB : ∀ x ∈ specSortDescP l.enum, x ∈ l.enum :=
    fun x hx => (specSortDescP_perm l.enum).mem_iff.mp hx
  have hBsort : ((specSortDescP l.enum).map Prod.fst).Pairwise (descIdxLE keys) := by
    rw [List.pairwise_map]
    refine hBsortP.imp_of_mem ?_
    intro a b ha hb hab
    obtain ⟨ha1, ha2⟩ := mem_enum_eq (hmemB a ha)
    obtain ⟨hb1, hb2⟩ := mem_enum_eq (hmemB b hb)
    have hka : keys.getD a.1 0 = scoreKey a.2 := by
      rw [hkeys, map_col_getD _ ha1, ← ha2]
      rfl
    have hkb : keys.getD b.1 0 = scoreKey b.2 := by
      rw [hkeys, map_col_getD _ hb1, ← hb2]
      rfl
    unfold descIdxLE
    rw [hka, hkb]
    exact hab
  have hAB : nargsortDesc keys = (specSortDescP l.enum).map Prod.fst := by
    haveI : IsAntisymm Nat (descIdxLE keys) := by
      constructor
      intro a b hab hba
      rcases hab with h1 | ⟨e1, le1⟩
      · rcases hba with h2 | ⟨e2, _⟩
        · exact absurd h2 (lt_asymm h1)
        · rw [e2] at h1
          exact absurd h1 (lt_irrefl _)
      · rcases hba with h2 | ⟨e2, le2⟩
        · rw [e1] at h2
          exact absurd h2 (lt_irrefl _)
        · exact le_antisymm le1 le2
    exact List.eq_of_perm_of_sorted (hAperm.trans hBperm.symm) hAsort hBsort
  unfold score_sort applyIdx
  rw [← hkeys, hAB, List.map_map]
  have hc : (specSortDescP l.enum).map ((fun i => l.getD i default) ∘ Prod.fst) =
      (specSortDescP l.enum).map Prod.snd := by
    apply List.map_congr_left
    intro x hx
    obtain ⟨_, h2⟩ := mem_enum_eq (hmemB x hx)
    simp only [Function.comp_apply]
    exact h2.symm
  rw [hc, specSortDescP_map_snd, List.enum_map_snd]

/-- C2 (amended): for tables of at most 16 players the Scoring Engine's
output IS the stable descending sort of the scored rows (sorted by final
score descending, equal scores in original input order, a permutation of
the scored rows).  For larger tables the tie order is the deterministic
permutation numpy's unstable quicksort produces, which need not preserve
input order (see the 17-row counterexample). -/
theorem c2_sort_small (df : List Player) (hne : df ≠ []) (hlen : df.length ≤ 16) :
    score_players df = Except.ok (specSortDesc (scoredPlayers df)) ∧
    (specSortDesc (scoredPlayers df)).Perm (scoredPlayers df) ∧
    (specSortDesc (scoredPlayers df)).Pairwise (fun a b => scoreKey b ≤ scoreKey a) := by
  refine ⟨?_, specSortDesc_perm _, specSortDesc_sorted _⟩
  rw [score_players_ok hne,
    score_sort_small (by rw [scoredPlayers_length]; exact hlen)]

/-- C2 witness: the small-table stable-sort theorem at the concrete
two-player table. -/
theorem c2_witness :
    score_players dfC1 = Except.ok (specSortDesc (scoredPlayers dfC1)) ∧
    (specSortDesc (scoredPlayers dfC1)).Perm (scoredPlayers dfC1) ∧
    (specSortDesc (scoredPlayers dfC1)).Pairwise (fun a b => scoreKey b ≤ scoreKey a) :=
  c2_sort_small dfC1 (by simp [dfC1]) (by norm_num [dfC1])

end FPLScout
